import Mathlib

/-!
# LRU page replacement and candy distribution: a verification development

Shallow embedding of `09. LRU Page Replacement.cpp` (namespace `LRU`) and of `06. Candy.cpp`
(namespace `Candy`).

* The C++ free store is a list of cells addressed by position; address `0` is
  `nullptr` and is never allocated, so dereferencing it fails. `new` returns the
  next unused address, `delete` empties the cell. Dereferencing an empty cell
  (null, dangling or unallocated pointer) is undefined behaviour in C++ and is
  the failure `none` here.
* `unordered_map<int, DLLNode*>` is an association list with one pair per key.
* `int` keys and values are never used arithmetically, so they are `Int`;
  the conversions of a size to `int` (`(int)mp.size()`, `(int)frames.size()`,
  `(int)dll.size()` and the loop bound `(int)pages.size()`) are modelled by `toInt32`.
-/

namespace LRU

/-! ## The free store -/

/-- The `struct DLLNode`: `prev` and `next` are addresses, `0` is `nullptr`. -/
structure DLLNode where
  key : Int
  val : Int
  prev : Nat
  next : Nat
deriving DecidableEq

/-- The free store: cell `a` holds the node allocated at address `a`, if any. -/
abbrev Heap := List (Option DLLNode)

/-- Dereference `p`; fails on `nullptr`, on a deleted and on an unallocated cell. -/
def Heap.read (h : Heap) (p : Nat) : Option DLLNode :=
  match h[p]? with
  | some (some n) => some n
  | _ => none

/-- The assignment `p->next = q`. -/
def Heap.setNext (h : Heap) (p q : Nat) : Option Heap :=
  match h.read p with
  | some n => some (h.set p (some { n with next := q }))
  | none => none

/-- The assignment `p->prev = q`. -/
def Heap.setPrev (h : Heap) (p q : Nat) : Option Heap :=
  match h.read p with
  | some n => some (h.set p (some { n with prev := q }))
  | none => none

/-- The assignment `p->val = v`. -/
def Heap.setVal (h : Heap) (p : Nat) (v : Int) : Option Heap :=
  match h.read p with
  | some n => some (h.set p (some { n with val := v }))
  | none => none

/-- The expression `new DLLNode(k, v)`: both links start as `nullptr`. -/
def Heap.alloc (h : Heap) (k v : Int) : Nat × Heap :=
  (h.length, h ++ [some ⟨k, v, 0, 0⟩])

/-- The statement `delete p`. -/
def Heap.free (h : Heap) (p : Nat) : Option Heap :=
  match h.read p with
  | some _ => some (h.set p none)
  | none => none

/-! ## The hash map -/

/-- The call `mp.erase(k)`. -/
def mapErase (mp : List (Int × Nat)) (k : Int) : List (Int × Nat) :=
  mp.filter fun e => e.1 != k

/-- The assignment `mp[k] = a`. -/
def mapSet (mp : List (Int × Nat)) (k : Int) (a : Nat) : List (Int × Nat) :=
  (k, a) :: mapErase mp k

/-- The conversion of a `size_t` to `int` (two's complement, 32 bits). -/
def toInt32 (n : Nat) : Int :=
  ((n + 2 ^ 31) % 2 ^ 32 : Nat) - 2 ^ 31

/-! ## The class `LRUCache` -/

/-- The data members of `LRUCache`, together with the cells it allocated. -/
structure LRUCache where
  capacity : Int
  mp : List (Int × Nat)
  head : Nat
  tail : Nat
  heap : Heap
deriving DecidableEq

namespace LRUCache

/-- The constructor `LRUCache(int cap)`. -/
def new (cap : Int) : Option LRUCache := do
  let h : Heap := [none]
  let (head, h) := h.alloc (-1) (-1)
  let (tail, h) := h.alloc (-1) (-1)
  let h ← h.setNext head tail
  let h ← h.setPrev tail head
  some { capacity := cap, mp := [], head := head, tail := tail, heap := h }

/-- The method `removeNode`. -/
def removeNode (c : LRUCache) (node : Nat) : Option LRUCache := do
  -- node->prev->next = node->next;
  let n ← c.heap.read node
  let h ← c.heap.setNext n.prev n.next
  -- node->next->prev = node->prev;
  let n ← h.read node
  let h ← h.setPrev n.next n.prev
  some { c with heap := h }

/-- The method `insertAtFront`. -/
def insertAtFront (c : LRUCache) (node : Nat) : Option LRUCache := do
  -- node->next = head->next;
  let hd ← c.heap.read c.head
  let h ← c.heap.setNext node hd.next
  -- node->prev = head;
  let h ← h.setPrev node c.head
  -- head->next->prev = node;
  let hd ← h.read c.head
  let h ← h.setPrev hd.next node
  -- head->next = node;
  let h ← h.setNext c.head node
  some { c with heap := h }

/-- The method `get`: the returned `int` and the cache afterwards. -/
def get (c : LRUCache) (page : Int) : Option (Int × LRUCache) :=
  match c.mp.lookup page with
  | none => some (-1, c)
  | some node => do
    let c ← c.removeNode node
    let c ← c.insertAtFront node
    let n ← c.heap.read node
    some (n.val, c)

/-- The method `put`. -/
def put (c : LRUCache) (page value : Int) : Option LRUCache :=
  match c.mp.lookup page with
  | some node => do
    let h ← c.heap.setVal node value
    let c := { c with heap := h }
    let c ← c.removeNode node
    c.insertAtFront node
  | none => do
    let c ←
      if toInt32 c.mp.length = c.capacity then do
        let t ← c.heap.read c.tail
        let lruNode := t.prev
        let l ← c.heap.read lruNode
        let c := { c with mp := mapErase c.mp l.key }
        let c ← c.removeNode lruNode
        let h ← c.heap.free lruNode
        some { c with heap := h }
      else some c
    let (newNode, h) := c.heap.alloc page value
    let c := { c with heap := h }
    let c ← c.insertAtFront newNode
    some { c with mp := mapSet c.mp page newNode }

/-- The loop of `countPageFaults`, with `pageFaults` as accumulator. -/
def countPageFaultsLoop (c : LRUCache) (pageFaults : Nat) : List Int → Option (Nat × LRUCache)
  | [] => some (pageFaults, c)
  | page :: rest => do
    let (r, c) ← c.get page
    if r = -1 then do
      let c ← c.put page page
      countPageFaultsLoop c (pageFaults + 1) rest
    else countPageFaultsLoop c pageFaults rest

/-- The method `countPageFaults`: the returned count. -/
def countPageFaults (c : LRUCache) (pages : List Int) : Option Nat :=
  (countPageFaultsLoop c 0 pages).map Prod.fst

/-! ### Observations of a cache -/

/-- Follow `next` from `p` until the tail sentinel, collecting each node met
with its address. -/
def walk (h : Heap) (tail : Nat) : Nat → Nat → Option (List (Nat × DLLNode))
  | 0, _ => none
  | fuel + 1, p =>
    if p = tail then some []
    else
      match h.read p with
      | none => none
      | some n => (walk h tail fuel n.next).map fun rest => (p, n) :: rest

/-- The real entries from `head->next` to `tail->prev`, MRU first. -/
def nodes (c : LRUCache) : Option (List (Nat × DLLNode)) :=
  match c.heap.read c.head with
  | none => none
  | some hd => walk c.heap c.tail c.heap.length hd.next

/-- The recency order: the `(key, val)` of the real entries, MRU first. -/
def order (c : LRUCache) : Option (List (Int × Int)) :=
  (nodes c).map (List.map fun e => (e.2.key, e.2.val))

/-- The value stored for `k`: the `val` of the node the map sends `k` to. -/
def value (c : LRUCache) (k : Int) : Option Int :=
  match c.mp.lookup k with
  | none => none
  | some a => (c.heap.read a).map DLLNode.val

/-- The key `k` is resident: `mp.find(k) != mp.end()`. -/
def resident (c : LRUCache) (k : Int) : Prop := (c.mp.lookup k).isSome

instance (c : LRUCache) (k : Int) : Decidable (c.resident k) := by
  unfold resident; infer_instance

end LRUCache

/-! ## Sequences of calls -/

/-- A public call on the cache. -/
inductive Op where
  | get (k : Int)
  | put (k v : Int)
deriving DecidableEq

/-- Perform one call, dropping the value a `get` returns. -/
def step (c : LRUCache) : Op → Option LRUCache
  | .get k => (c.get k).map Prod.snd
  | .put k v => c.put k v

/-- Perform a sequence of calls, first call first. -/
def run (c : LRUCache) : List Op → Option LRUCache
  | [] => some c
  | o :: os => (step c o).bind fun c1 => run c1 os

/-- The states a fresh `LRUCache(cap)` can reach through `get` and `put`. -/
def Reachable (cap : Int) (c : LRUCache) : Prop :=
  ∃ c0 ops, LRUCache.new cap = some c0 ∧ run c0 ops = some c

/-! ## The brute-force counter -/

/-- The inner loop of `findLRU`, `for (int j = currentIndex - 1; j >= 0; j--)`, entered
with `j + 1 = n`: the largest index below `n` at which `page` occurs, or `-1`. -/
def lastUsedScan (pages : List Int) (page : Int) : Nat → Int
  | 0 => -1
  | j + 1 => if pages[j]? = some page then (j : Int) else lastUsedScan pages page j

/-- The function `findLRU`. The argument `frames` is the sequence in which
`for (int page : frames)` visits the set; the state of the outer loop is
`(lruPage, lruTime)`. -/
def findLRU (pages : List Int) (currentIndex : Nat) (frames : List Int) : Int :=
  (frames.foldl (fun (st : Int × Int) (page : Int) =>
      let lastUsed := lastUsedScan pages page currentIndex
      if lastUsed < st.2 then (page, lastUsed) else st)
    (-1, (currentIndex : Int))).1

/-- One iteration of the loop of `lruPageFaultsBrute` at index `i`, on the state
`(frames, pageFaults)`. The set `frames` is kept as a list without repetition, and
`visit frames` is the order in which the `unordered_set` is iterated, which the C++
standard leaves unspecified. -/
def bruteStep (visit : List Int → List Int) (pages : List Int) (capacity : Int)
    (st : List Int × Nat) (i : Nat) : List Int × Nat :=
  let page := pages.getD i 0
  if page ∈ st.1 then st
  else
    let frames :=
      if toInt32 st.1.length = capacity then st.1.erase (findLRU pages i (visit st.1))
      else st.1
    (frames.insert page, st.2 + 1)

/-- The loop of `lruPageFaultsBrute` run for the indices `is` from the state
`(frames, pageFaults)`; its result is the counter `pageFaults` that the function returns
after the loop. -/
def lruPageFaultsBruteLoop (visit : List Int → List Int) (pages : List Int) (capacity : Int) :
    List Nat → List Int × Nat → Nat
  | [], st => st.2
  | i :: is, st =>
    lruPageFaultsBruteLoop visit pages capacity is (bruteStep visit pages capacity st i)

/-- The function `lruPageFaultsBrute`, for a given iteration order `visit` of the set.
The loop is `for (int i = 0; i < (int)pages.size(); i++)`: its bound is the size converted
to `int`, so it runs for `i = 0, …, (int)pages.size() - 1`, and not at all when the
converted size is not positive. -/
def lruPageFaultsBrute (visit : List Int → List Int) (pages : List Int) (capacity : Int) :
    Nat :=
  lruPageFaultsBruteLoop visit pages capacity (List.range (toInt32 pages.length).toNat) ([], 0)

/-- A reference string of `2 ^ 31` references, all to page `0`. -/
def manyRefs : List Int := List.replicate (2 ^ 31) 0

/-! ## The list-and-map counter -/

/-- The loop of `lruPageFaultsOptimal`. The `std::list<int>` is a list of nodes
`(identity, page)`, front first; an iterator is the identity of the node it points to, and
`fresh` is the next unused identity. Erasing through an iterator that points to no node of
the list, and `back()` on an empty list, are undefined behaviour: `none`. -/
def lruPageFaultsOptimalLoop (capacity : Int) :
    List Int → List (Nat × Int) → Nat → List (Int × Nat) → Nat → Option Nat
  | [], _, _, _, pageFaults => some pageFaults
  | page :: rest, dll, fresh, mp, pageFaults =>
    match mp.lookup page with
    | some it =>
      -- dll.erase(mp[page]); dll.push_front(page); mp[page] = dll.begin();
      if dll.any (fun nd => nd.1 == it) then
        lruPageFaultsOptimalLoop capacity rest
          ((fresh, page) :: dll.filter (fun nd => nd.1 != it)) (fresh + 1)
          (mapSet mp page fresh) pageFaults
      else none
    | none =>
      if toInt32 dll.length = capacity then
        -- int lruPage = dll.back(); dll.pop_back(); mp.erase(lruPage);
        match dll.getLast? with
        | none => none
        | some lru =>
          lruPageFaultsOptimalLoop capacity rest ((fresh, page) :: dll.dropLast) (fresh + 1)
            (mapSet (mapErase mp lru.2) page fresh) (pageFaults + 1)
      else
        lruPageFaultsOptimalLoop capacity rest ((fresh, page) :: dll) (fresh + 1)
          (mapSet mp page fresh) (pageFaults + 1)

/-- The function `lruPageFaultsOptimal`. -/
def lruPageFaultsOptimal (pages : List Int) (capacity : Int) : Option Nat :=
  lruPageFaultsOptimalLoop capacity pages [] 0 [] 0

/-! ## The two reference strings of `main` -/

/-- The first reference string of `main`. -/
def pages1 : List Int := [7, 0, 1, 2, 0, 3, 0, 4, 2, 3, 0, 3, 2]

/-- The second reference string of `main`. -/
def pages2 : List Int := [1, 2, 3, 4, 1, 2, 5, 1, 2, 3, 4, 5]

/-- The call `LRUCache(capacity).countPageFaults(pages)` on a fresh cache. -/
def countPageFaultsFresh (pages : List Int) (capacity : Int) : Option Nat :=
  (LRUCache.new capacity).bind fun c => c.countPageFaults pages

/-! ## Vocabulary of the proofs -/

/-- The cells `a` and `b` are neighbours: `a->next == b` and `b->prev == a`. -/
def link (h : Heap) (a b : Nat) : Prop :=
  (∃ n, h.read a = some n ∧ n.next = b) ∧ (∃ m, h.read b = some m ∧ m.prev = a)

/-- The key stored at address `a` (`0` when the cell is empty). -/
def keyAt (h : Heap) (a : Nat) : Int :=
  match h.read a with
  | some n => n.key
  | none => 0

/-- The value stored at address `a` (`0` when the cell is empty). -/
def valAt (h : Heap) (a : Nat) : Int :=
  match h.read a with
  | some n => n.val
  | none => 0

/-- The representation invariant of the cache: `as` lists the addresses of the
real entries, MRU first. -/
structure Inv (c : LRUCache) (as : List Nat) : Prop where
  nodup : (c.head :: (as ++ [c.tail])).Nodup
  chain : List.Chain' (link c.heap) (c.head :: (as ++ [c.tail]))
  mp_perm : c.mp.Perm (as.map fun a => (keyAt c.heap a, a))
  keys_nodup : (as.map (keyAt c.heap)).Nodup
  size_le : (as.length : Int) ≤ c.capacity
  cap_lt : c.capacity < 2 ^ 31

/-- The node stored at address `a` (a blank node when the cell is empty). -/
def nodeAt (h : Heap) (a : Nat) : DLLNode :=
  match h.read a with
  | some n => n
  | none => ⟨0, 0, 0, 0⟩

/-- The keys and values of two free stores agree at every address. -/
def SameKV (h h1 : Heap) : Prop :=
  ∀ a, (h1.read a).map (fun n => (n.key, n.val)) = (h.read a).map fun n => (n.key, n.val)

namespace LRUCache

/-- Two caches that differ at most in their free store. -/
def SameFrame (c c1 : LRUCache) : Prop :=
  c1.capacity = c.capacity ∧ c1.mp = c.mp ∧ c1.head = c.head ∧ c1.tail = c.tail ∧
    c1.heap.length = c.heap.length

end LRUCache

/-- The `(key, val)` pairs stored at the addresses `as`. -/
def kvs (h : Heap) (as : List Nat) : List (Int × Int) :=
  as.map fun a => (keyAt h a, valAt h a)

/-! ## The touch history -/

/-- The keys touched by a sequence of calls on `c`, oldest touch first: a touch of `k` is
a `put(k, _)` or a `get(k)` that hits. -/
def touches (c : LRUCache) : List Op → List Int
  | [] => []
  | .get k :: ops =>
    match c.get k with
    | none => []
    | some (_, c1) => if c.resident k then k :: touches c1 ops else touches c1 ops
  | .put k v :: ops =>
    match c.put k v with
    | none => []
    | some c1 => k :: touches c1 ops

/-- Keep the first occurrence of every key and drop its later ones. -/
def firstOccurrences : List Int → List Int
  | [] => []
  | k :: ks => k :: (firstOccurrences ks).filter fun x => x != k

/-- The touched keys ordered by most recent touch first, without repetition. -/
def recency (ts : List Int) : List Int :=
  firstOccurrences ts.reverse

/-! ## Sample states -/

/-- The cache `LRUCache(2)` after `put(1, 1); put(2, 2)`. -/
def sampleFull : LRUCache :=
  ⟨2, [(2, 4), (1, 3)], 1, 2,
    [none, some ⟨-1, -1, 0, 4⟩, some ⟨-1, -1, 3, 0⟩, some ⟨1, 1, 4, 2⟩, some ⟨2, 2, 1, 3⟩]⟩

/-! ## Well-formedness of the sentinel-bounded list -/

/-- The list of `c` is well formed with its real entries at the addresses `as`, MRU first:
following `next` from the head sentinel meets exactly the entries `as` and then the tail
sentinel; every node `n` of the list other than the tail has `n.next.prev = n`; `head.next`
is the first entry (the tail if there is none) and `tail.prev` is the last entry (the head
if there is none). -/
def ListWF (c : LRUCache) (as : List Nat) : Prop :=
  c.nodes.map (List.map Prod.fst) = some as ∧
  (∀ a ∈ c.head :: as,
    ∃ n m, c.heap.read a = some n ∧ c.heap.read n.next = some m ∧ m.prev = a) ∧
  (c.heap.read c.head).map DLLNode.next = (as ++ [c.tail]).head? ∧
  (c.heap.read c.tail).map DLLNode.prev = (c.head :: as).getLast?

/-! ## Counting misses -/

/-- The number of references of `pages` that miss when the `n` most recently referenced
distinct pages are the resident ones, `pre` being the references made before `pages`. -/
def stackFaults (n : Nat) (pre : List Int) : List Int → Nat
  | [] => 0
  | p :: rest =>
    (if p ∈ (recency pre).take n then 0 else 1) + stackFaults n (pre ++ [p]) rest

/-- The invariant of the loop of `lruPageFaultsOptimal`: node identities and pages are
without repetition, identities are below `fresh`, and the map sends each page of the list to
the node that holds it. -/
structure OptInv (dll : List (Nat × Int)) (fresh : Nat) (mp : List (Int × Nat)) : Prop where
  ids_nodup : (dll.map Prod.fst).Nodup
  ids_lt : ∀ e ∈ dll, e.1 < fresh
  pages_nodup : (dll.map Prod.snd).Nodup
  mp_perm : mp.Perm (dll.map fun e => (e.2, e.1))

end LRU

/-! # Candy (`06. Candy.cpp`)

The result and the counters are `int` in the source; they are modelled over the unbounded
integers, so the embedding describes the functions as long as no `int` overflows. -/

namespace Candy

/-- The body of the first loop of `candy` at index `i`, on the vector `num`. -/
def leftStep (ratings : List Int) (num : List Int) (i : Nat) : List Int :=
  if ratings.getD i 0 > ratings.getD (i - 1) 0 then num.set i (num.getD (i - 1) 0 + 1)
  else num

/-- The first loop of `candy`, `for (int i = 1; i < n; i++)`. -/
def leftPass (ratings : List Int) (num : List Int) : List Int :=
  (List.range' 1 (ratings.length - 1)).foldl (leftStep ratings) num

/-- The body of the second loop of `candy` at index `i`, on the vector `num`. -/
def rightStep (ratings : List Int) (num : List Int) (i : Nat) : List Int :=
  if ratings.getD i 0 > ratings.getD (i + 1) 0 then
    num.set i (max (num.getD i 0) (num.getD (i + 1) 0 + 1))
  else num

/-- The second loop of `candy`, `for (int i = n - 2; i >= 0; i--)`. -/
def rightPass (ratings : List Int) (num : List Int) : List Int :=
  (List.range (ratings.length - 1)).reverse.foldl (rightStep ratings) num

/-- The vector `num` of `candy` when the summation loop starts. -/
def candyNum (ratings : List Int) : List Int :=
  rightPass ratings (leftPass ratings (List.replicate ratings.length 1))

/-- The function `candy`. -/
def candy (ratings : List Int) : Int :=
  if ratings.length = 1 then 1
  else (candyNum ratings).foldl (fun sum it => sum + it) 0

/-- The state `(total, up, down, peak)` of the loop of `candyOptimal`. -/
structure OptState where
  total : Int
  up : Int
  down : Int
  peak : Int
deriving DecidableEq

/-- One iteration of the loop of `candyOptimal` at index `i`. -/
def optStep (ratings : List Int) (s : OptState) (i : Nat) : OptState :=
  if ratings.getD i 0 > ratings.getD (i - 1) 0 then
    -- up++; down = 0; peak = up + 1; total += peak;
    ⟨s.total + (s.up + 1 + 1), s.up + 1, 0, s.up + 1 + 1⟩
  else if ratings.getD i 0 < ratings.getD (i - 1) 0 then
    -- down++; up = 0; if (down >= peak) total += 1; total += 1;
    ⟨(if s.down + 1 ≥ s.peak then s.total + 1 else s.total) + 1, 0, s.down + 1, s.peak⟩
  else
    -- up = 0; down = 0; peak = 0; total += 1;
    ⟨s.total + 1, 0, 0, 0⟩

/-- The function `candyOptimal`. -/
def candyOptimal (ratings : List Int) : Int :=
  if ratings.length = 1 then 1
  else ((List.range' 1 (ratings.length - 1)).foldl (optStep ratings) ⟨1, 0, 0, 0⟩).total

/-! ## Assignments of candies -/

/-- The list `num` is an admissible assignment for `ratings`: one amount per child, at least
one candy each, and strictly more than an adjacent child with a strictly lower rating. -/
def Valid (ratings num : List Int) : Prop :=
  num.length = ratings.length ∧ (∀ i, i < num.length → 1 ≤ num.getD i 0) ∧
  ∀ i, i + 1 < ratings.length →
    (ratings.getD i 0 > ratings.getD (i + 1) 0 → num.getD i 0 > num.getD (i + 1) 0) ∧
    (ratings.getD (i + 1) 0 > ratings.getD i 0 → num.getD (i + 1) 0 > num.getD i 0)

/-- The value the first loop leaves at index `i`: one more than the length of the strictly
ascending run that ends at `i`. -/
def leftVal (ratings : List Int) : Nat → Int
  | 0 => 1
  | i + 1 => if ratings.getD (i + 1) 0 > ratings.getD i 0 then leftVal ratings i + 1 else 1

/-- The value the second loop leaves at the index at distance `d` from the last one. -/
def finalVal (ratings : List Int) : Nat → Int
  | 0 => leftVal ratings (ratings.length - 1)
  | d + 1 =>
    if ratings.getD (ratings.length - 1 - (d + 1)) 0
        > ratings.getD (ratings.length - 1 - (d + 1) + 1) 0 then
      max (leftVal ratings (ratings.length - 1 - (d + 1))) (finalVal ratings d + 1)
    else leftVal ratings (ratings.length - 1 - (d + 1))

end Candy

namespace LRU

/-! # Theorems -/

/-! ## The free store -/

theorem Heap.read_lt {h : Heap} {p : Nat} {n : DLLNode} (hp : h.read p = some n) :
    p < h.length := by
  unfold Heap.read at hp
  by_contra hlt
  have : h[p]? = none := List.getElem?_eq_none (by omega)
  simp [this] at hp

theorem Heap.read_set {h : Heap} {p : Nat} {n : DLLNode} (hp : h.read p = some n)
    (x : Option DLLNode) (a : Nat) :
    Heap.read (h.set p x) a = if a = p then x else h.read a := by
  have hlt := Heap.read_lt hp
  unfold Heap.read
  by_cases hap : a = p
  · subst hap
    simp [List.getElem?_set_self hlt]
    cases x <;> rfl
  · have : p ≠ a := fun e => hap e.symm
    simp [List.getElem?_set_ne this, hap]

theorem Heap.ext {h1 h2 : Heap} (hl : h1.length = h2.length)
    (hr : ∀ a, h1.read a = h2.read a) : h1 = h2 := by
  apply List.ext_getElem?
  intro a
  have := hr a
  unfold Heap.read at this
  by_cases ha : a < h1.length
  · have ha2 : a < h2.length := hl ▸ ha
    rw [List.getElem?_eq_getElem ha, List.getElem?_eq_getElem ha2] at this ⊢
    cases e1 : h1[a] <;> cases e2 : h2[a] <;> simp_all
  · rw [List.getElem?_eq_none (by omega), List.getElem?_eq_none (by omega)]

theorem Heap.setNext_eq {h : Heap} {p : Nat} {n : DLLNode} (hp : h.read p = some n) (q : Nat) :
    h.setNext p q = some (h.set p (some { n with next := q })) := by
  simp [Heap.setNext, hp]

theorem Heap.setPrev_eq {h : Heap} {p : Nat} {n : DLLNode} (hp : h.read p = some n) (q : Nat) :
    h.setPrev p q = some (h.set p (some { n with prev := q })) := by
  simp [Heap.setPrev, hp]

theorem Heap.setVal_eq {h : Heap} {p : Nat} {n : DLLNode} (hp : h.read p = some n) (v : Int) :
    h.setVal p v = some (h.set p (some { n with val := v })) := by
  simp [Heap.setVal, hp]

theorem Heap.free_eq {h : Heap} {p : Nat} {n : DLLNode} (hp : h.read p = some n) :
    h.free p = some (h.set p none) := by
  simp [Heap.free, hp]

theorem Heap.read_alloc (h : Heap) (k v : Int) (a : Nat) :
    Heap.read (h.alloc k v).2 a
      = if a = h.length then some ⟨k, v, 0, 0⟩ else h.read a := by
  unfold Heap.read Heap.alloc
  by_cases ha : a = h.length
  · subst ha
    simp
  · simp only [ha, if_false]
    by_cases hlt : a < h.length
    · rw [List.getElem?_append_left hlt]
    · rw [List.getElem?_eq_none (by simp; omega), List.getElem?_eq_none (by omega)]

theorem Heap.setNext_spec {h : Heap} {p : Nat} {n : DLLNode} (hp : h.read p = some n) (q : Nat) :
    ∃ h1, h.setNext p q = some h1 ∧ h1.length = h.length ∧
      ∀ a, h1.read a = if a = p then some { n with next := q } else h.read a :=
  ⟨_, Heap.setNext_eq hp q, by simp, fun a => Heap.read_set hp _ a⟩

theorem Heap.setPrev_spec {h : Heap} {p : Nat} {n : DLLNode} (hp : h.read p = some n) (q : Nat) :
    ∃ h1, h.setPrev p q = some h1 ∧ h1.length = h.length ∧
      ∀ a, h1.read a = if a = p then some { n with prev := q } else h.read a :=
  ⟨_, Heap.setPrev_eq hp q, by simp, fun a => Heap.read_set hp _ a⟩

theorem Heap.setVal_spec {h : Heap} {p : Nat} {n : DLLNode} (hp : h.read p = some n) (v : Int) :
    ∃ h1, h.setVal p v = some h1 ∧ h1.length = h.length ∧
      ∀ a, h1.read a = if a = p then some { n with val := v } else h.read a :=
  ⟨_, Heap.setVal_eq hp v, by simp, fun a => Heap.read_set hp _ a⟩

theorem Heap.free_spec {h : Heap} {p : Nat} {n : DLLNode} (hp : h.read p = some n) :
    ∃ h1, h.free p = some h1 ∧ h1.length = h.length ∧
      ∀ a, h1.read a = if a = p then none else h.read a :=
  ⟨_, Heap.free_eq hp, by simp, fun a => Heap.read_set hp _ a⟩

namespace LRUCache

/-! ## The two list primitives on the free store -/

theorem removeNode_spec {c : LRUCache} {x : Nat} {nx np nn : DLLNode}
    (hx : c.heap.read x = some nx) (hp : c.heap.read nx.prev = some np)
    (hn : c.heap.read nx.next = some nn) (hxp : x ≠ nx.prev) (hpn : nx.prev ≠ nx.next) :
    ∃ c1, c.removeNode x = some c1 ∧ SameFrame c c1 ∧
      ∀ a, c1.heap.read a =
        if a = nx.next then some { nn with prev := nx.prev }
        else if a = nx.prev then some { np with next := nx.next }
        else c.heap.read a := by
  obtain ⟨h1, e1, l1, r1⟩ := Heap.setNext_spec hp nx.next
  have hx1 : h1.read x = some nx := by rw [r1, if_neg hxp, hx]
  have hn1 : h1.read nx.next = some nn := by rw [r1, if_neg (Ne.symm hpn), hn]
  obtain ⟨h2, e2, l2, r2⟩ := Heap.setPrev_spec hn1 nx.prev
  refine ⟨{ c with heap := h2 }, ?_, ⟨rfl, rfl, rfl, rfl, by simp [l2, l1]⟩, ?_⟩
  · simp only [removeNode, hx, Option.bind_eq_bind, Option.some_bind, e1, hx1, e2]
  · intro a
    simp only [r2, r1]

theorem insertAtFront_spec {c : LRUCache} {x : Nat} {nx nh nf : DLLNode}
    (hh : c.heap.read c.head = some nh) (hx : c.heap.read x = some nx)
    (hf : c.heap.read nh.next = some nf) (hxh : x ≠ c.head) (hxf : x ≠ nh.next)
    (hhf : c.head ≠ nh.next) :
    ∃ c1, c.insertAtFront x = some c1 ∧ SameFrame c c1 ∧
      ∀ a, c1.heap.read a =
        if a = c.head then some { nh with next := x }
        else if a = nh.next then some { nf with prev := x }
        else if a = x then some { nx with next := nh.next, prev := c.head }
        else c.heap.read a := by
  obtain ⟨h1, e1, l1, r1⟩ := Heap.setNext_spec hx nh.next
  have hx1 : h1.read x = some { nx with next := nh.next } := by rw [r1, if_pos rfl]
  obtain ⟨h2, e2, l2, r2⟩ := Heap.setPrev_spec hx1 c.head
  have hh2 : h2.read c.head = some nh := by
    rw [r2, if_neg (Ne.symm hxh), r1, if_neg (Ne.symm hxh), hh]
  have hf2 : h2.read nh.next = some nf := by
    rw [r2, if_neg (Ne.symm hxf), r1, if_neg (Ne.symm hxf), hf]
  obtain ⟨h3, e3, l3, r3⟩ := Heap.setPrev_spec hf2 x
  have hh3 : h3.read c.head = some nh := by rw [r3, if_neg hhf, hh2]
  obtain ⟨h4, e4, l4, r4⟩ := Heap.setNext_spec hh3 x
  refine ⟨{ c with heap := h4 }, ?_, ⟨rfl, rfl, rfl, rfl, by simp [l4, l3, l2, l1]⟩, ?_⟩
  · simp only [insertAtFront, hh, Option.bind_eq_bind, Option.some_bind, e1, e2, hh2, e3, e4]
  · intro a
    simp only [r4, r3, r2, r1]
    split_ifs <;> rfl

end LRUCache

/-! ## Chains of neighbours -/

theorem chain_frame {h h1 : Heap} {l : List Nat} (ch : List.Chain' (link h) l)
    (hf : ∀ a b, a ∈ l → b ∈ l → link h a b → link h1 a b) : List.Chain' (link h1) l := by
  rw [List.Chain'.iff_mem] at ch
  exact ch.imp fun a b ⟨ha, hb, hl⟩ => hf a b ha hb hl

theorem split_path (hd tl : Nat) (as : List Nat) (x : Nat) (hx : x ∈ as)
    (nd : (hd :: (as ++ [tl])).Nodup) :
    ∃ L p n R, hd :: (as ++ [tl]) = L ++ p :: x :: n :: R ∧
      hd :: (as.erase x ++ [tl]) = L ++ p :: n :: R := by
  obtain ⟨l1, l2, rfl⟩ := List.append_of_mem hx
  have hx1 : x ∉ l1 := by
    intro hmem
    have nd2 : (l1 ++ x :: l2).Nodup := by
      have := (List.nodup_cons.mp nd).2
      exact (List.nodup_append.mp this).1
    have := (List.nodup_append.mp nd2).2.2
    exact this hmem (List.mem_cons_self _ _)
  have he : (l1 ++ x :: l2).erase x = l1 ++ l2 := by
    rw [List.erase_append_right _ hx1, List.erase_cons_head]
  rw [he]
  have hA : ∃ L p, hd :: l1 = L ++ [p] := by
    rcases List.eq_nil_or_concat (hd :: l1) with h | ⟨L, p, h⟩
    · cases h
    · exact ⟨L, p, by simpa using h⟩
  obtain ⟨L, p, hA⟩ := hA
  have hB : ∃ n R, l2 ++ [tl] = n :: R := by
    cases l2 with
    | nil => exact ⟨tl, [], rfl⟩
    | cons b l2 => exact ⟨b, l2 ++ [tl], rfl⟩
  obtain ⟨n, R, hB⟩ := hB
  refine ⟨L, p, n, R, ?_, ?_⟩
  · calc hd :: (l1 ++ x :: l2 ++ [tl]) = (hd :: l1) ++ x :: (l2 ++ [tl]) := by simp
      _ = L ++ p :: x :: n :: R := by rw [hA, hB]; simp
  · calc hd :: (l1 ++ l2 ++ [tl]) = (hd :: l1) ++ (l2 ++ [tl]) := by simp
      _ = L ++ p :: n :: R := by rw [hA, hB]; simp

theorem chain_remove {h h1 : Heap} {L R : List Nat} {p x n : Nat} {np nn : DLLNode}
    (nd : (L ++ p :: x :: n :: R).Nodup)
    (ch : List.Chain' (link h) (L ++ p :: x :: n :: R))
    (hp : h.read p = some np) (hn : h.read n = some nn)
    (hr : ∀ a, h1.read a =
        if a = n then some { nn with prev := p }
        else if a = p then some { np with next := n }
        else h.read a) :
    List.Chain' (link h1) (L ++ p :: n :: R) := by
  have hmid : link h p x ∧ link h x n := by
    have := (List.chain'_split.mp ch).2
    rw [List.chain'_cons, List.chain'_cons] at this
    exact ⟨this.1, this.2.1⟩
  obtain ⟨⟨⟨np', e1, hpx⟩, _⟩, ⟨_, ⟨nn', e2, hnx⟩⟩⟩ := hmid
  rw [hp] at e1; cases e1
  rw [hn] at e2; cases e2
  have ndL : p ∉ L ∧ x ∉ L ∧ n ∉ L := by
    have := (List.nodup_append.mp nd).2.2
    refine ⟨fun hm => this hm (by simp), fun hm => this hm (by simp), fun hm => this hm (by simp)⟩
  have ndR : (p :: x :: n :: R).Nodup := (List.nodup_append.mp nd).2.1
  simp only [List.nodup_cons, List.mem_cons, not_or] at ndR
  obtain ⟨⟨hpx', hpn, hpR⟩, ⟨hxn, hxR⟩, hnR, _⟩ := ndR
  have chL : List.Chain' (link h) (L ++ [p]) := (List.chain'_split.mp ch).1
  have chR : List.Chain' (link h) (n :: R) := by
    have := (List.chain'_split.mp ch).2
    rw [List.chain'_cons, List.chain'_cons] at this
    exact this.2.2
  rw [List.chain'_split, List.chain'_cons]
  refine ⟨chain_frame chL ?_, ?_, chain_frame chR ?_⟩
  · intro a b ha hb ⟨⟨na, ea, hab⟩, ⟨nb, eb, hba⟩⟩
    have han : a ≠ n := by
      rintro rfl
      rcases List.mem_append.mp ha with h | h
      · exact ndL.2.2 h
      · simp at h; exact hpn h.symm
    have hbn : b ≠ n := by
      rintro rfl
      rcases List.mem_append.mp hb with h | h
      · exact ndL.2.2 h
      · simp at h; exact hpn h.symm
    have hap : a ≠ p := by
      rintro rfl
      rw [hp] at ea; cases ea
      rw [hpx] at hab; subst hab
      rcases List.mem_append.mp hb with h | h
      · exact ndL.2.1 h
      · simp at h; exact hpx' h.symm
    refine ⟨⟨na, by rw [hr, if_neg han, if_neg hap, ea], hab⟩, ?_⟩
    by_cases hbp : b = p
    · subst hbp
      rw [hp] at eb; cases eb
      exact ⟨{ np with next := n }, by rw [hr, if_neg hbn, if_pos rfl], hba⟩
    · exact ⟨nb, by rw [hr, if_neg hbn, if_neg hbp, eb], hba⟩
  · exact ⟨⟨_, by rw [hr, if_neg hpn, if_pos rfl], rfl⟩, ⟨_, by rw [hr, if_pos rfl], rfl⟩⟩
  · intro a b ha hb ⟨⟨na, ea, hab⟩, ⟨nb, eb, hba⟩⟩
    have hap : a ≠ p := by
      rintro rfl
      simp at ha
      rcases ha with h | h
      · exact hpn h
      · exact hpR h
    have hbp : b ≠ p := by
      rintro rfl
      simp at hb
      rcases hb with h | h
      · exact hpn h
      · exact hpR h
    have hbn : b ≠ n := by
      rintro rfl
      rw [hn] at eb; cases eb
      rw [hnx] at hba; subst hba
      simp at ha
      rcases ha with h | h
      · exact hxn h
      · exact hxR h
    refine ⟨?_, ⟨nb, by rw [hr, if_neg hbn, if_neg hbp, eb], hba⟩⟩
    by_cases han : a = n
    · subst han
      rw [hn] at ea; cases ea
      exact ⟨{ nn with prev := p }, by rw [hr, if_pos rfl], hab⟩
    · exact ⟨na, by rw [hr, if_neg han, if_neg hap, ea], hab⟩

theorem chain_insert {h h1 : Heap} {hd x f : Nat} {R : List Nat} {nh nf nx : DLLNode}
    (nd : (hd :: x :: f :: R).Nodup) (ch : List.Chain' (link h) (hd :: f :: R))
    (hh : h.read hd = some nh) (hf : h.read f = some nf)
    (hr : ∀ a, h1.read a =
        if a = hd then some { nh with next := x }
        else if a = f then some { nf with prev := x }
        else if a = x then some { nx with next := f, prev := hd }
        else h.read a) :
    List.Chain' (link h1) (hd :: x :: f :: R) := by
  simp only [List.nodup_cons, List.mem_cons, not_or] at nd
  obtain ⟨⟨hhx, hhf, hhR⟩, ⟨hxf, hxR⟩, hfR, _⟩ := nd
  rw [List.chain'_cons] at ch
  obtain ⟨⟨_, ⟨nf', e2, hfh⟩⟩, chR⟩ := ch
  rw [hf] at e2; cases e2
  rw [List.chain'_cons, List.chain'_cons]
  refine ⟨?_, ?_, chain_frame chR ?_⟩
  · exact ⟨⟨{ nh with next := x }, by rw [hr, if_pos rfl], rfl⟩,
      ⟨{ nx with next := f, prev := hd }, by
        rw [hr, if_neg (Ne.symm hhx), if_neg hxf, if_pos rfl], rfl⟩⟩
  · exact ⟨⟨{ nx with next := f, prev := hd }, by
        rw [hr, if_neg (Ne.symm hhx), if_neg hxf, if_pos rfl], rfl⟩,
      ⟨{ nf with prev := x }, by rw [hr, if_neg (Ne.symm hhf), if_pos rfl], rfl⟩⟩
  · intro a b ha hb ⟨⟨na, ea, hab⟩, ⟨nb, eb, hba⟩⟩
    have mem_ne : ∀ y, y ∈ f :: R → y ≠ hd ∧ y ≠ x := by
      intro y hy
      simp at hy
      constructor
      · rintro rfl
        rcases hy with h | h
        · exact hhf h
        · exact hhR h
      · rintro rfl
        rcases hy with h | h
        · exact hxf h
        · exact hxR h
    obtain ⟨hah, hax⟩ := mem_ne a ha
    obtain ⟨hbh, hbx⟩ := mem_ne b hb
    have hbf : b ≠ f := by
      rintro rfl
      rw [hf] at eb; cases eb
      rw [hfh] at hba
      exact hah hba.symm
    refine ⟨?_, ⟨nb, by rw [hr, if_neg hbh, if_neg hbf, if_neg hbx, eb], hba⟩⟩
    by_cases haf : a = f
    · subst haf
      rw [hf] at ea; cases ea
      exact ⟨{ nf with prev := x }, by rw [hr, if_neg hah, if_pos rfl], hab⟩
    · exact ⟨na, by rw [hr, if_neg hah, if_neg haf, if_neg hax, ea], hab⟩

theorem SameKV.keyAt {h h1 : Heap} (s : SameKV h h1) (a : Nat) : keyAt h1 a = keyAt h a := by
  have := s a
  unfold LRU.keyAt
  cases e1 : h1.read a <;> cases e2 : h.read a <;> simp_all

theorem SameKV.valAt {h h1 : Heap} (s : SameKV h h1) (a : Nat) : valAt h1 a = valAt h a := by
  have := s a
  unfold LRU.valAt
  cases e1 : h1.read a <;> cases e2 : h.read a <;> simp_all

theorem SameKV.trans {h h1 h2 : Heap} (s : SameKV h h1) (t : SameKV h1 h2) : SameKV h h2 :=
  fun a => (t a).trans (s a)

theorem chain_read {h : Heap} {l : List Nat} (ch : List.Chain' (link h) l) (a : Nat)
    (ha : a ∈ l) (h2 : 2 ≤ l.length) : ∃ n, h.read a = some n := by
  induction l with
  | nil => cases ha
  | cons b l ih =>
    cases l with
    | nil => simp at h2
    | cons d l =>
      rw [List.chain'_cons] at ch
      obtain ⟨⟨⟨nb, eb, _⟩, ⟨nd, ed, _⟩⟩, ch2⟩ := ch
      rcases List.mem_cons.mp ha with rfl | ha
      · exact ⟨nb, eb⟩
      · cases l with
        | nil =>
          simp at ha
          subst ha
          exact ⟨nd, ed⟩
        | cons e l => exact ih ch2 ha (by simp)

namespace LRUCache

/-! ## The list primitives on a well-formed list -/

theorem unlink_spec {c : LRUCache} {as : List Nat} {x : Nat}
    (nd : (c.head :: (as ++ [c.tail])).Nodup)
    (ch : List.Chain' (link c.heap) (c.head :: (as ++ [c.tail]))) (hx : x ∈ as) :
    ∃ c1 nx, c.heap.read x = some nx ∧ c.removeNode x = some c1 ∧ SameFrame c c1 ∧
      List.Chain' (link c1.heap) (c.head :: (as.erase x ++ [c.tail])) ∧
      SameKV c.heap c1.heap ∧ c1.heap.read x = some nx := by
  obtain ⟨L, p, n, R, e1, e2⟩ := split_path c.head c.tail as x hx nd
  rw [e1] at nd ch
  rw [e2]
  have hmid : link c.heap p x ∧ link c.heap x n := by
    have := (List.chain'_split.mp ch).2
    rw [List.chain'_cons, List.chain'_cons] at this
    exact ⟨this.1, this.2.1⟩
  obtain ⟨⟨⟨np, hp, _⟩, ⟨nx, hnx, hxp⟩⟩, ⟨⟨nx', hnx', hxn⟩, ⟨nn, hn, _⟩⟩⟩ := hmid
  rw [hnx] at hnx'; cases hnx'
  have ndR : (p :: x :: n :: R).Nodup := (List.nodup_append.mp nd).2.1
  simp only [List.nodup_cons, List.mem_cons, not_or] at ndR
  obtain ⟨⟨hpx, hpn, _⟩, ⟨hxn', _⟩, _, _⟩ := ndR
  subst hxp hxn
  obtain ⟨c1, r1, f1, rd⟩ := removeNode_spec hnx hp hn (Ne.symm hpx) hpn
  refine ⟨c1, nx, hnx, r1, f1, chain_remove nd ch hp hn rd, ?_, ?_⟩
  · intro a
    rw [rd]
    split_ifs with h1 h2
    · subst h1; rw [hn]; rfl
    · subst h2; rw [hp]; rfl
    · rfl
  · rw [rd, if_neg hxn', if_neg (Ne.symm hpx), hnx]

theorem front_spec {c : LRUCache} {as : List Nat} {x : Nat} {nx : DLLNode}
    (nd : (c.head :: x :: (as ++ [c.tail])).Nodup)
    (ch : List.Chain' (link c.heap) (c.head :: (as ++ [c.tail])))
    (hx : c.heap.read x = some nx) :
    ∃ c1, c.insertAtFront x = some c1 ∧ SameFrame c c1 ∧
      List.Chain' (link c1.heap) (c.head :: (x :: as ++ [c.tail])) ∧
      SameKV c.heap c1.heap ∧
      c1.heap.read x = some { nx with prev := c.head, next := (x :: as ++ [c.tail]).getD 1 0 } := by
  have hB : ∃ f R, as ++ [c.tail] = f :: R := by
    cases as with
    | nil => exact ⟨c.tail, [], rfl⟩
    | cons b l2 => exact ⟨b, l2 ++ [c.tail], rfl⟩
  obtain ⟨f, R, hB⟩ := hB
  have hB2 : x :: as ++ [c.tail] = x :: f :: R := by simp [← hB]
  rw [hB] at nd ch
  rw [hB2]
  have ch0 := ch
  rw [List.chain'_cons] at ch0
  obtain ⟨⟨⟨nh, hh, hhf⟩, ⟨nf, hf, _⟩⟩, _⟩ := ch0
  subst hhf
  have nd0 := nd
  simp only [List.nodup_cons, List.mem_cons, not_or] at nd0
  obtain ⟨⟨hhx, hhf, _⟩, ⟨hxf, _⟩, _, _⟩ := nd0
  obtain ⟨c1, r1, f1, rd⟩ := insertAtFront_spec hh hx hf (Ne.symm hhx) hxf hhf
  refine ⟨c1, r1, f1, chain_insert nd ch hh hf rd, ?_, ?_⟩
  · intro a
    rw [rd]
    split_ifs with h1 h2 h3
    · subst h1; rw [hh]; rfl
    · subst h2; rw [hf]; rfl
    · subst h3; rw [hx]; rfl
    · rfl
  · rw [rd, if_neg (Ne.symm hhx), if_neg hxf, if_pos rfl]
    rfl

end LRUCache

/-! ## The hash map -/

theorem lookup_mem {l : List (Int × Nat)} {k : Int} {x : Nat} (h : l.lookup k = some x) :
    (k, x) ∈ l := by
  induction l with
  | nil => simp at h
  | cons e l ih =>
    obtain ⟨k1, a1⟩ := e
    rw [List.lookup_cons] at h
    by_cases hk : k = k1
    · subst hk
      simp at h
      simp [h]
    · have : (k == k1) = false := by simpa using hk
      rw [this] at h
      exact List.mem_cons_of_mem _ (ih h)

theorem mem_lookup {l : List (Int × Nat)} {k : Int} {x : Nat} (nd : (l.map Prod.fst).Nodup)
    (h : (k, x) ∈ l) : l.lookup k = some x := by
  induction l with
  | nil => cases h
  | cons e l ih =>
    obtain ⟨k1, a1⟩ := e
    rw [List.map_cons, List.nodup_cons] at nd
    rw [List.lookup_cons]
    rcases List.mem_cons.mp h with h | h
    · cases h
      simp
    · have hk : k ≠ k1 := by
        intro e
        exact nd.1 (List.mem_map.mpr ⟨(k, x), h, e⟩)
      have : (k == k1) = false := by simpa using hk
      rw [this]
      exact ih nd.2 h

theorem lookup_none_iff {l : List (Int × Nat)} {k : Int} :
    l.lookup k = none ↔ k ∉ l.map Prod.fst := by
  induction l with
  | nil => simp
  | cons e l ih =>
    obtain ⟨k1, a1⟩ := e
    rw [List.lookup_cons]
    by_cases hk : k = k1
    · subst hk
      simp
    · have : (k == k1) = false := by simpa using hk
      rw [this]
      simp only [List.map_cons, List.mem_cons, not_or]
      rw [ih]
      exact ⟨fun h => ⟨hk, h⟩, fun h => h.2⟩

theorem Inv.mp_keys {c : LRUCache} {as : List Nat} (inv : Inv c as) :
    (c.mp.map Prod.fst).Perm (as.map (keyAt c.heap)) := by
  have := inv.mp_perm.map Prod.fst
  simpa [List.map_map, Function.comp_def] using this

theorem Inv.lookup_iff {c : LRUCache} {as : List Nat} (inv : Inv c as) (k : Int) (x : Nat) :
    c.mp.lookup k = some x ↔ x ∈ as ∧ keyAt c.heap x = k := by
  have nd : (c.mp.map Prod.fst).Nodup := inv.mp_keys.nodup_iff.mpr inv.keys_nodup
  have hm : (k, x) ∈ c.mp ↔ x ∈ as ∧ keyAt c.heap x = k := by
    rw [inv.mp_perm.mem_iff]
    simp only [List.mem_map, Prod.mk.injEq]
    constructor
    · rintro ⟨a, ha, hk, rfl⟩
      exact ⟨ha, hk⟩
    · rintro ⟨ha, hk⟩
      exact ⟨x, ha, hk, rfl⟩
  exact ⟨fun h => hm.mp (lookup_mem h), fun h => mem_lookup nd (hm.mpr h)⟩

theorem Inv.lookup_none {c : LRUCache} {as : List Nat} (inv : Inv c as) (k : Int) :
    c.mp.lookup k = none ↔ ∀ x ∈ as, keyAt c.heap x ≠ k := by
  rw [lookup_none_iff, inv.mp_keys.mem_iff]
  simp only [List.mem_map, not_exists, not_and]

theorem Inv.size {c : LRUCache} {as : List Nat} (inv : Inv c as) : c.mp.length = as.length := by
  simpa using inv.mp_perm.length_eq

theorem Inv.read {c : LRUCache} {as : List Nat} (inv : Inv c as) (a : Nat)
    (ha : a ∈ c.head :: (as ++ [c.tail])) : ∃ n, c.heap.read a = some n :=
  chain_read inv.chain a ha (by simp)

theorem toInt32_of_lt {n : Nat} (h : n < 2 ^ 31) : toInt32 n = n := by
  unfold toInt32
  omega

theorem Inv.full_iff {c : LRUCache} {as : List Nat} (inv : Inv c as) :
    toInt32 c.mp.length = c.capacity ↔ (as.length : Int) = c.capacity := by
  have h1 := inv.size_le
  have h2 := inv.cap_lt
  rw [inv.size, toInt32_of_lt (by omega)]

namespace LRUCache

theorem touch_spec {c : LRUCache} {as : List Nat} {x : Nat}
    (nd : (c.head :: (as ++ [c.tail])).Nodup)
    (ch : List.Chain' (link c.heap) (c.head :: (as ++ [c.tail]))) (hx : x ∈ as) :
    ∃ c1 c2 nx, c.heap.read x = some nx ∧ c.removeNode x = some c1 ∧
      c1.insertAtFront x = some c2 ∧ SameFrame c c2 ∧
      (c.head :: (x :: as.erase x ++ [c.tail])).Nodup ∧
      List.Chain' (link c2.heap) (c.head :: (x :: as.erase x ++ [c.tail])) ∧
      SameKV c.heap c2.heap := by
  obtain ⟨c1, nx, hnx, r1, f1, ch1, kv1, hx1⟩ := unlink_spec nd ch hx
  obtain ⟨ec, em, eh, et, el⟩ := f1
  have pm : (c.head :: (as ++ [c.tail])).Perm (c.head :: (x :: as.erase x ++ [c.tail])) :=
    ((List.perm_cons_erase hx).append_right _).cons _
  have nd2 := pm.nodup_iff.mp nd
  have nd1 : (c1.head :: x :: (as.erase x ++ [c1.tail])).Nodup := by
    rw [eh, et]; exact nd2
  have ch1' : List.Chain' (link c1.heap) (c1.head :: (as.erase x ++ [c1.tail])) := by
    rw [eh, et]; exact ch1
  obtain ⟨c2, r2, f2, ch2, kv2, _⟩ := front_spec nd1 ch1' hx1
  obtain ⟨e1, e2, e3, e4, e5⟩ := f2
  refine ⟨c1, c2, nx, hnx, r1, r2, ⟨?_, ?_, ?_, ?_, ?_⟩, nd2, ?_, kv1.trans kv2⟩
  · rw [e1]; exact ec
  · rw [e2]; exact em
  · rw [e3, eh]
  · rw [e4, et]
  · rw [e5, el]
  · rw [eh, et] at ch2; exact ch2

end LRUCache

namespace LRUCache

/-! ## `get` and `put` on a cache that satisfies the invariant -/

theorem SameKV.read_val {h h1 : Heap} (s : SameKV h h1) {a : Nat} {n : DLLNode}
    (hn : h.read a = some n) : ∃ n1, h1.read a = some n1 ∧ n1.key = n.key ∧ n1.val = n.val := by
  have := s a
  rw [hn] at this
  cases e : h1.read a with
  | none => simp [e] at this
  | some n1 =>
    simp [e] at this
    exact ⟨n1, rfl, this.1, this.2⟩

theorem get_hit {c : LRUCache} {as : List Nat} {k : Int} {x : Nat} (inv : Inv c as)
    (hl : c.mp.lookup k = some x) :
    ∃ c1, c.get k = some (valAt c.heap x, c1) ∧ Inv c1 (x :: as.erase x) ∧
      SameFrame c c1 ∧ SameKV c.heap c1.heap := by
  have hx : x ∈ as := ((inv.lookup_iff k x).mp hl).1
  obtain ⟨c1, c2, nx, hnx, r1, r2, fr, nd2, ch2, kv⟩ := touch_spec inv.nodup inv.chain hx
  obtain ⟨n2, hn2, -, hv⟩ := SameKV.read_val kv hnx
  have fr0 := fr
  obtain ⟨ec, em, eh, et, el⟩ := fr
  have pm := List.perm_cons_erase hx
  have hkey : ∀ a, keyAt c2.heap a = keyAt c.heap a := kv.keyAt
  refine ⟨c2, ?_, ?_, fr0, kv⟩
  · have hva : valAt c.heap x = n2.val := by
      unfold LRU.valAt
      rw [hnx, hv]
    simp only [get, hl, r1, r2, hn2, Option.bind_eq_bind, Option.some_bind, hva]
  · refine ⟨by rw [eh, et]; exact nd2, by rw [eh, et]; exact ch2, ?_, ?_, ?_,
      by rw [ec]; exact inv.cap_lt⟩
    · rw [em]
      have : (fun a => (keyAt c2.heap a, a)) = fun a => (keyAt c.heap a, a) := by
        funext a; rw [hkey]
      rw [this]
      exact inv.mp_perm.trans (pm.map _)
    · have : keyAt c2.heap = keyAt c.heap := funext hkey
      rw [this]
      exact (pm.map _).nodup_iff.mp inv.keys_nodup
    · rw [ec, ← pm.length_eq]
      exact inv.size_le

end LRUCache

namespace LRUCache

theorem put_hit {c : LRUCache} {as : List Nat} {k : Int} {x : Nat} (inv : Inv c as)
    (hl : c.mp.lookup k = some x) (v : Int) :
    ∃ c1, c.put k v = some c1 ∧ Inv c1 (x :: as.erase x) ∧ SameFrame c c1 ∧
      (∀ a, keyAt c1.heap a = keyAt c.heap a) ∧
      (∀ a, valAt c1.heap a = if a = x then v else valAt c.heap a) := by
  have hx : x ∈ as := ((inv.lookup_iff k x).mp hl).1
  obtain ⟨nx, hnx⟩ := inv.read x (by simp [hx])
  obtain ⟨h1, e1, l1, rd1⟩ := Heap.setVal_spec hnx v
  have hlink : ∀ a b, link c.heap a b → link h1 a b := by
    intro a b ⟨⟨na, ea, hab⟩, ⟨nb, eb, hba⟩⟩
    constructor
    · by_cases hax : a = x
      · subst hax
        rw [hnx] at ea; cases ea
        exact ⟨{ nx with val := v }, by rw [rd1, if_pos rfl], hab⟩
      · exact ⟨na, by rw [rd1, if_neg hax, ea], hab⟩
    · by_cases hbx : b = x
      · subst hbx
        rw [hnx] at eb; cases eb
        exact ⟨{ nx with val := v }, by rw [rd1, if_pos rfl], hba⟩
      · exact ⟨nb, by rw [rd1, if_neg hbx, eb], hba⟩
  have hkey1 : ∀ a, keyAt h1 a = keyAt c.heap a := by
    intro a
    unfold LRU.keyAt
    rw [rd1]
    by_cases hax : a = x
    · subst hax; rw [if_pos rfl, hnx]
    · rw [if_neg hax]
  have hval1 : ∀ a, valAt h1 a = if a = x then v else valAt c.heap a := by
    intro a
    unfold LRU.valAt
    rw [rd1]
    by_cases hax : a = x
    · subst hax; rw [if_pos rfl, if_pos rfl]
    · rw [if_neg hax, if_neg hax]
  have ch0 : List.Chain' (link h1) (c.head :: (as ++ [c.tail])) := inv.chain.imp hlink
  obtain ⟨c1, c2, nx', -, r1, r2, fr, nd2, ch2, kv⟩ :=
    touch_spec (c := { c with heap := h1 }) inv.nodup ch0 hx
  obtain ⟨ec, em, eh, et, el⟩ := fr
  simp only at ec em eh et el nd2 ch2 kv
  have pm := List.perm_cons_erase hx
  have hkey : ∀ a, keyAt c2.heap a = keyAt c.heap a := fun a => (kv.keyAt a).trans (hkey1 a)
  refine ⟨c2, ?_, ?_, ⟨ec, em, eh, et, by rw [el, l1]⟩, hkey, fun a => (kv.valAt a).trans (hval1 a)⟩
  · simp only [put, hl, e1, r1, r2, Option.bind_eq_bind, Option.some_bind]
  · refine ⟨by rw [eh, et]; exact nd2, by rw [eh, et]; exact ch2, ?_, ?_, ?_,
      by rw [ec]; exact inv.cap_lt⟩
    · rw [em]
      have : (fun a => (keyAt c2.heap a, a)) = fun a => (keyAt c.heap a, a) := by
        funext a; rw [hkey]
      rw [this]
      exact inv.mp_perm.trans (pm.map _)
    · have : keyAt c2.heap = keyAt c.heap := funext hkey
      rw [this]
      exact (pm.map _).nodup_iff.mp inv.keys_nodup
    · rw [ec, ← pm.length_eq]
      exact inv.size_le

end LRUCache

namespace LRUCache

theorem mapErase_absent {mp : List (Int × Nat)} {k : Int} (h : mp.lookup k = none) :
    mapErase mp k = mp := by
  unfold mapErase
  rw [List.filter_eq_self]
  intro e he
  rw [lookup_none_iff] at h
  have : e.1 ≠ k := by
    rintro rfl
    exact h (List.mem_map.mpr ⟨e, he, rfl⟩)
  simpa using this

theorem insert_new {c : LRUCache} {as : List Nat} {k : Int} (inv : Inv c as)
    (hl : c.mp.lookup k = none) (hlt : (as.length : Int) < c.capacity) (v : Int) :
    ∃ c2, ((insertAtFront ⟨c.capacity, c.mp, c.head, c.tail, (c.heap.alloc k v).2⟩
          (c.heap.alloc k v).1).bind fun c1 =>
        some ⟨c1.capacity, mapSet c1.mp k (c.heap.alloc k v).1, c1.head, c1.tail, c1.heap⟩)
        = some c2 ∧
      Inv c2 (c.heap.length :: as) ∧ c2.mp = (k, c.heap.length) :: c.mp ∧
      c2.capacity = c.capacity ∧ c2.head = c.head ∧ c2.tail = c.tail ∧
      keyAt c2.heap c.heap.length = k ∧ valAt c2.heap c.heap.length = v ∧
      (∀ a ∈ as, keyAt c2.heap a = keyAt c.heap a ∧ valAt c2.heap a = valAt c.heap a) := by
  have hne : ∀ a ∈ c.head :: (as ++ [c.tail]), a ≠ c.heap.length := by
    intro a ha e
    obtain ⟨n, hn⟩ := inv.read a ha
    have := Heap.read_lt hn
    omega
  have rd1 := Heap.read_alloc c.heap k v
  have hlink : ∀ a b, a ∈ c.head :: (as ++ [c.tail]) → b ∈ c.head :: (as ++ [c.tail]) →
      link c.heap a b → link (c.heap.alloc k v).2 a b := by
    intro a b ha hb ⟨⟨na, ea, hab⟩, ⟨nb, eb, hba⟩⟩
    exact ⟨⟨na, by rw [rd1, if_neg (hne a ha), ea], hab⟩,
      ⟨nb, by rw [rd1, if_neg (hne b hb), eb], hba⟩⟩
  have ch0 := chain_frame inv.chain hlink
  have nd0 : (c.head :: c.heap.length :: (as ++ [c.tail])).Nodup := by
    have nd := inv.nodup
    simp only [List.nodup_cons, List.mem_cons, not_or] at nd ⊢
    refine ⟨⟨?_, nd.1⟩, ?_, nd.2⟩
    · exact hne c.head (by simp)
    · intro hm
      exact hne _ (List.mem_cons_of_mem _ hm) rfl
  have hy : Heap.read (c.heap.alloc k v).2 c.heap.length = some ⟨k, v, 0, 0⟩ := by
    rw [rd1, if_pos rfl]
  obtain ⟨c1, r1, fr, ch1, kv, -⟩ :=
    front_spec (c := { c with heap := (c.heap.alloc k v).2 }) nd0 ch0 hy
  obtain ⟨ec, em, eh, et, el⟩ := fr
  simp only at ec em eh et el ch1 kv
  have hkey_new : keyAt c1.heap c.heap.length = k := by
    rw [kv.keyAt]; unfold LRU.keyAt; rw [hy]
  have hval_new : valAt c1.heap c.heap.length = v := by
    rw [kv.valAt]; unfold LRU.valAt; rw [hy]
  have hold : ∀ a ∈ as, keyAt c1.heap a = keyAt c.heap a ∧ valAt c1.heap a = valAt c.heap a := by
    intro a ha
    have hr : Heap.read (c.heap.alloc k v).2 a = c.heap.read a := by
      rw [rd1, if_neg (hne a (by simp [ha]))]
    rw [kv.keyAt, kv.valAt]
    unfold LRU.keyAt LRU.valAt
    rw [hr]
    exact ⟨rfl, rfl⟩
  refine ⟨{ c1 with mp := (k, c.heap.length) :: c.mp }, ?_, ?_, rfl, ec, eh, et, hkey_new,
    hval_new, hold⟩
  · have r1' : insertAtFront ⟨c.capacity, c.mp, c.head, c.tail, c.heap ++ [some ⟨k, v, 0, 0⟩]⟩
        c.heap.length = some c1 := r1
    simp only [Heap.alloc, r1', Option.some_bind, em, mapSet, mapErase_absent hl]
  · refine ⟨by simpa [eh, et] using nd0, by simpa [eh, et] using ch1, ?_, ?_, ?_, ?_⟩
    · simp only [List.map_cons, hkey_new]
      refine List.Perm.cons _ ?_
      have : as.map (fun a => (keyAt c1.heap a, a)) = as.map fun a => (keyAt c.heap a, a) :=
        List.map_congr_left fun a ha => by rw [(hold a ha).1]
      rw [this]
      exact inv.mp_perm
    · simp only [List.map_cons, hkey_new, List.nodup_cons]
      have : as.map (keyAt c1.heap) = as.map (keyAt c.heap) :=
        List.map_congr_left fun a ha => (hold a ha).1
      rw [this]
      refine ⟨?_, inv.keys_nodup⟩
      intro hm
      obtain ⟨a, ha, hk⟩ := List.mem_map.mp hm
      exact (inv.lookup_none k).mp hl a ha hk
    · simp only [List.length_cons, ec]
      push_cast
      omega
    · simp only [ec]
      exact inv.cap_lt

end LRUCache

namespace LRUCache

theorem evict_spec {c : LRUCache} {as : List Nat} {z : Nat} (inv : Inv c (as ++ [z])) :
    ∃ t nz c1 h2 cb, c.heap.read c.tail = some t ∧ t.prev = z ∧ c.heap.read z = some nz ∧
      removeNode ⟨c.capacity, mapErase c.mp nz.key, c.head, c.tail, c.heap⟩ z = some c1 ∧
      c1.heap.free z = some h2 ∧ cb = ⟨c1.capacity, c1.mp, c1.head, c1.tail, h2⟩ ∧
      Inv cb as ∧ (as.length : Int) < cb.capacity ∧
      cb.mp = mapErase c.mp (keyAt c.heap z) ∧
      cb.capacity = c.capacity ∧ cb.head = c.head ∧ cb.tail = c.tail ∧
      cb.heap.length = c.heap.length ∧
      (∀ a ∈ as, keyAt cb.heap a = keyAt c.heap a ∧ valAt cb.heap a = valAt c.heap a) := by
  have nd := inv.nodup
  have ch := inv.chain
  have hzt : link c.heap z c.tail := by
    have e : c.head :: (as ++ [z] ++ [c.tail]) = (c.head :: as) ++ z :: [c.tail] := by simp
    rw [e] at ch
    have := (List.chain'_split.mp ch).2
    exact List.chain'_pair.mp this
  obtain ⟨⟨nz, hnz, _⟩, ⟨t, ht, htz⟩⟩ := hzt
  have hzas : z ∉ as := by
    intro hm
    have h1 : (as ++ [z]).Nodup := by
      have := (List.nodup_cons.mp nd).2
      exact (List.nodup_append.mp this).1
    exact (List.nodup_append.mp h1).2.2 hm (List.mem_singleton_self z)
  have her : (as ++ [z]).erase z = as := by
    rw [List.erase_append_right _ hzas]
    simp
  have hzne : ∀ a ∈ c.head :: (as ++ [c.tail]), a ≠ z := by
    intro a ha e
    subst e
    obtain ⟨nd1, nd2⟩ := List.nodup_cons.mp nd
    rcases List.mem_cons.mp ha with h | h
    · exact nd1 (by simp [← h])
    · rcases List.mem_append.mp h with h | h
      · exact hzas h
      · exact (List.nodup_append.mp nd2).2.2 (by simp) h
  obtain ⟨c1, nz', hnz', r1, fr, ch1, kv, hz1⟩ :=
    @unlink_spec ⟨c.capacity, mapErase c.mp nz.key, c.head, c.tail, c.heap⟩ (as ++ [z]) z
      nd ch (by simp)
  simp only at hnz'
  rw [hnz] at hnz'; cases hnz'
  obtain ⟨ec, em, eh, et, el⟩ := fr
  simp only at ec em eh et el ch1 kv
  rw [her] at ch1
  obtain ⟨h2, e2, l2, rd2⟩ := Heap.free_spec hz1
  have hlink : ∀ a b, a ∈ c.head :: (as ++ [c.tail]) → b ∈ c.head :: (as ++ [c.tail]) →
      link c1.heap a b → link h2 a b := by
    intro a b ha hb ⟨⟨na, ea, hab⟩, ⟨nb, eb, hba⟩⟩
    exact ⟨⟨na, by rw [rd2, if_neg (hzne a ha), ea], hab⟩,
      ⟨nb, by rw [rd2, if_neg (hzne b hb), eb], hba⟩⟩
  have ch2 := chain_frame ch1 hlink
  have hkz : keyAt c.heap z = nz.key := by unfold LRU.keyAt; rw [hnz]
  have hold : ∀ a ∈ as, keyAt h2 a = keyAt c.heap a ∧ valAt h2 a = valAt c.heap a := by
    intro a ha
    have hr : h2.read a = c1.heap.read a := by
      rw [rd2, if_neg (hzne a (by simp [ha]))]
    rw [← kv.keyAt, ← kv.valAt]
    unfold LRU.keyAt LRU.valAt
    rw [hr]
    exact ⟨rfl, rfl⟩
  have knd := inv.keys_nodup
  rw [List.map_append, List.nodup_append] at knd
  have hkne : ∀ a ∈ as, keyAt c.heap a ≠ keyAt c.heap z := by
    intro a ha e
    exact knd.2.2 (List.mem_map.mpr ⟨a, ha, rfl⟩) (by simp [e])
  have hsz := inv.size_le
  simp only [List.length_append, List.length_singleton] at hsz
  push_cast at hsz
  refine ⟨t, nz, c1, h2, ⟨c1.capacity, c1.mp, c1.head, c1.tail, h2⟩, ht, htz, hnz, r1, e2, rfl,
    ?_, ?_, ?_, ec, eh, et, by simp [l2, el], hold⟩
  · refine ⟨?_, ?_, ?_, ?_, ?_, ?_⟩
    · simp only [eh, et]
      have e : c.head :: (as ++ [z] ++ [c.tail]) = (c.head :: as) ++ z :: [c.tail] := by simp
      rw [e] at nd
      have := nd.sublist
        (List.Sublist.append_left (List.sublist_cons_self z [c.tail]) (c.head :: as))
      simpa using this
    · simp only [eh, et]
      exact ch2
    · simp only [em]
      have pf := inv.mp_perm.filter (fun e => e.1 != nz.key)
      unfold mapErase
      refine pf.trans ?_
      rw [List.map_append, List.filter_append]
      have f1 : (as.map fun a => (keyAt c.heap a, a)).filter (fun e => e.1 != nz.key)
          = as.map fun a => (keyAt h2 a, a) := by
        rw [List.filter_eq_self.mpr]
        · exact List.map_congr_left fun a ha => by rw [(hold a ha).1]
        · intro e he
          obtain ⟨a, ha, rfl⟩ := List.mem_map.mp he
          have := hkne a ha
          rw [hkz] at this
          simpa using this
      have f2 : ([z].map fun a => (keyAt c.heap a, a)).filter (fun e => e.1 != nz.key) = [] := by
        simp [hkz]
      rw [f1, f2, List.append_nil]
    · have : as.map (keyAt h2) = as.map (keyAt c.heap) :=
        List.map_congr_left fun a ha => (hold a ha).1
      simp only [this]
      exact knd.1
    · simp only [ec]
      omega
    · simp only [ec]
      exact inv.cap_lt
  · simp only [ec]
    omega
  · simp only [em, hkz]

end LRUCache

namespace LRUCache

theorem put_miss {c : LRUCache} {as : List Nat} {k : Int} (inv : Inv c as)
    (hl : c.mp.lookup k = none) (hcap : 1 ≤ c.capacity) (v : Int) :
    ∃ c2 y, c.put k v = some c2 ∧
      Inv c2 (y :: if (as.length : Int) = c.capacity then as.dropLast else as) ∧
      c2.capacity = c.capacity ∧ c2.head = c.head ∧ c2.tail = c.tail ∧
      keyAt c2.heap y = k ∧ valAt c2.heap y = v ∧
      (∀ a ∈ (if (as.length : Int) = c.capacity then as.dropLast else as),
        keyAt c2.heap a = keyAt c.heap a ∧ valAt c2.heap a = valAt c.heap a) := by
  by_cases hfull : (as.length : Int) = c.capacity
  · have hne : as ≠ [] := by
      rintro rfl
      simp at hfull
      omega
    obtain ⟨as1, z, rfl⟩ : ∃ as1 z, as = as1 ++ [z] := by
      rcases List.eq_nil_or_concat as with h | ⟨L, b, h⟩
      · exact absurd h hne
      · exact ⟨L, b, by simpa using h⟩
    obtain ⟨t, nz, c1, h2, cb, ht, htz, hnz, r1, ef, hcb, invb, hlt, emb, ecb, ehb, etb, elb,
      holdb⟩ := evict_spec inv
    have hlb : cb.mp.lookup k = none := by
      rw [invb.lookup_none]
      intro x hx
      rw [(holdb x hx).1]
      exact (inv.lookup_none k).mp hl x (by simp [hx])
    obtain ⟨c2, e2, inv2, em2, ec2, eh2, et2, hk2, hv2, hold2⟩ := insert_new invb hlb hlt v
    refine ⟨c2, cb.heap.length, ?_, ?_, by rw [ec2, ecb], by rw [eh2, ehb], by rw [et2, etb],
      hk2, hv2, ?_⟩
    · unfold put
      rw [hl]
      dsimp only []
      rw [if_pos (inv.full_iff.mpr hfull)]
      simp only [ht, htz, hnz, r1, ef, Option.bind_eq_bind, Option.some_bind]
      subst hcb
      exact e2
    · rw [if_pos hfull, List.dropLast_concat]
      exact inv2
    · rw [if_pos hfull, List.dropLast_concat]
      intro a ha
      exact ⟨(hold2 a ha).1.trans (holdb a ha).1, (hold2 a ha).2.trans (holdb a ha).2⟩
  · have hlt : (as.length : Int) < c.capacity := lt_of_le_of_ne inv.size_le hfull
    obtain ⟨c2, e2, inv2, em2, ec2, eh2, et2, hk2, hv2, hold2⟩ := insert_new inv hl hlt v
    refine ⟨c2, c.heap.length, ?_, ?_, ec2, eh2, et2, hk2, hv2, ?_⟩
    · unfold put
      rw [hl]
      dsimp only []
      rw [if_neg (fun h => hfull (inv.full_iff.mp h))]
      simp only [Option.bind_eq_bind, Option.some_bind]
      exact e2
    · rw [if_neg hfull]
      exact inv2
    · rw [if_neg hfull]
      exact hold2

theorem new_eq (cap : Int) :
    LRUCache.new cap = some ⟨cap, [], 1, 2, [none, some ⟨-1, -1, 0, 2⟩, some ⟨-1, -1, 1, 0⟩]⟩ := by
  rfl

theorem new_inv {cap : Int} (h0 : 0 ≤ cap) (h1 : cap < 2 ^ 31) :
    Inv ⟨cap, [], 1, 2, [none, some ⟨-1, -1, 0, 2⟩, some ⟨-1, -1, 1, 0⟩]⟩ [] := by
  refine ⟨by simp, ?_, by simp, by simp, by simpa using h0, h1⟩
  simp only [List.nil_append, List.chain'_pair]
  exact ⟨⟨⟨-1, -1, 0, 2⟩, rfl, rfl⟩, ⟨⟨-1, -1, 1, 0⟩, rfl, rfl⟩⟩

end LRUCache

open LRUCache in
theorem inv_step {c : LRUCache} {as : List Nat} (inv : Inv c as) (hcap : 1 ≤ c.capacity)
    (o : Op) : ∃ c1 as1, step c o = some c1 ∧ Inv c1 as1 ∧ c1.capacity = c.capacity := by
  cases o with
  | get k =>
    cases hl : c.mp.lookup k with
    | none => exact ⟨c, as, by simp [step, LRUCache.get, hl], inv, rfl⟩
    | some x =>
      obtain ⟨c1, e, inv1, fr, _⟩ := get_hit inv hl
      exact ⟨c1, _, by simp [step, e], inv1, fr.1⟩
  | put k v =>
    cases hl : c.mp.lookup k with
    | none =>
      obtain ⟨c2, y, e, inv2, ec, _⟩ := put_miss inv hl hcap v
      exact ⟨c2, _, by simp [step, e], inv2, ec⟩
    | some x =>
      obtain ⟨c1, e, inv1, fr, _⟩ := put_hit inv hl v
      exact ⟨c1, _, by simp [step, e], inv1, fr.1⟩

theorem inv_run {c : LRUCache} {as : List Nat} (inv : Inv c as) (hcap : 1 ≤ c.capacity)
    (ops : List Op) : ∃ c1 as1, run c ops = some c1 ∧ Inv c1 as1 ∧ c1.capacity = c.capacity := by
  induction ops generalizing c as with
  | nil => exact ⟨c, as, rfl, inv, rfl⟩
  | cons o ops ih =>
    obtain ⟨c1, as1, e1, inv1, ec1⟩ := inv_step inv hcap o
    obtain ⟨c2, as2, e2, inv2, ec2⟩ := ih inv1 (by rw [ec1]; exact hcap)
    exact ⟨c2, as2, by simp [run, e1, e2], inv2, by rw [ec2, ec1]⟩

theorem reachable_inv {cap : Int} {c : LRUCache} (h1 : 1 ≤ cap) (h2 : cap < 2 ^ 31)
    (hr : Reachable cap c) : ∃ as, Inv c as ∧ c.capacity = cap := by
  obtain ⟨c0, ops, e0, er⟩ := hr
  rw [LRUCache.new_eq] at e0
  cases e0
  obtain ⟨c1, as1, e1, inv1, ec1⟩ := inv_run (LRUCache.new_inv (by omega) h2) h1 ops
  rw [er] at e1
  cases e1
  exact ⟨as1, inv1, ec1⟩

/-! ## Reading the recency order off the list -/

theorem nodeAt_key (h : Heap) (a : Nat) : (nodeAt h a).key = keyAt h a := by
  unfold nodeAt keyAt
  cases h.read a <;> rfl

theorem nodeAt_val (h : Heap) (a : Nat) : (nodeAt h a).val = valAt h a := by
  unfold nodeAt valAt
  cases h.read a <;> rfl

theorem walk_chain {h : Heap} {tail : Nat} (l : List Nat) :
    ∀ (q : Nat) (nq : DLLNode) (fuel : Nat), List.Chain' (link h) (q :: (l ++ [tail])) →
      tail ∉ l → h.read q = some nq → l.length < fuel →
      LRUCache.walk h tail fuel nq.next = some (l.map fun a => (a, nodeAt h a)) := by
  induction l with
  | nil =>
    intro q nq fuel ch _ hq hf
    obtain ⟨⟨nq', e, hn⟩, _⟩ := List.chain'_pair.mp ch
    rw [hq] at e; cases e
    cases fuel with
    | zero => simp at hf
    | succ f => simp [LRUCache.walk, hn]
  | cons a l ih =>
    intro q nq fuel ch ht hq hf
    rw [List.cons_append, List.chain'_cons] at ch
    obtain ⟨⟨⟨nq', e, hn⟩, ⟨na, ha, _⟩⟩, ch2⟩ := ch
    rw [hq] at e; cases e
    have hat : a ≠ tail := fun e => ht (by simp [e])
    cases fuel with
    | zero => simp at hf
    | succ f =>
      have := ih a na f ch2 (fun hm => ht (List.mem_cons_of_mem _ hm)) ha
        (by simpa using hf)
      have hna : nodeAt h a = na := by unfold nodeAt; rw [ha]
      simp [LRUCache.walk, hn, hat, ha, this, hna]

theorem Inv.length_lt {c : LRUCache} {as : List Nat} (inv : Inv c as) :
    as.length < c.heap.length := by
  have hsub : (c.head :: (as ++ [c.tail])) ⊆ List.range c.heap.length := by
    intro a ha
    obtain ⟨n, hn⟩ := inv.read a ha
    exact List.mem_range.mpr (Heap.read_lt hn)
  have := (List.subperm_of_subset inv.nodup hsub).length_le
  simp at this
  omega

theorem Inv.nodes_eq {c : LRUCache} {as : List Nat} (inv : Inv c as) :
    c.nodes = some (as.map fun a => (a, nodeAt c.heap a)) := by
  obtain ⟨nh, hh⟩ := inv.read c.head (by simp)
  have ht : c.tail ∉ as := by
    intro hm
    have nd := (List.nodup_cons.mp inv.nodup).2
    exact (List.nodup_append.mp nd).2.2 hm (List.mem_singleton_self _)
  unfold LRUCache.nodes
  rw [hh]
  exact walk_chain as c.head nh _ inv.chain ht hh inv.length_lt

theorem Inv.order_eq {c : LRUCache} {as : List Nat} (inv : Inv c as) :
    c.order = some (as.map fun a => (keyAt c.heap a, valAt c.heap a)) := by
  unfold LRUCache.order
  rw [inv.nodes_eq]
  simp [List.map_map, Function.comp_def, nodeAt_key, nodeAt_val]

theorem Inv.value_eq {c : LRUCache} {as : List Nat} (inv : Inv c as) {k : Int} {x : Nat}
    (hl : c.mp.lookup k = some x) : c.value k = some (valAt c.heap x) := by
  obtain ⟨n, hn⟩ := inv.read x (by simp [((inv.lookup_iff k x).mp hl).1])
  unfold LRUCache.value valAt
  rw [hl]
  simp [hn]

theorem value_none {c : LRUCache} {k : Int} (hl : c.mp.lookup k = none) : c.value k = none := by
  unfold LRUCache.value
  rw [hl]

namespace LRUCache

theorem ext_of_frame {c c1 : LRUCache} (fr : SameFrame c c1)
    (hr : ∀ a, c1.heap.read a = c.heap.read a) : c1 = c := by
  obtain ⟨ec, em, eh, et, el⟩ := fr
  have := Heap.ext el hr
  cases c
  cases c1
  simp_all

theorem get_mru {c : LRUCache} {rest : List Nat} {k : Int} {x : Nat} (inv : Inv c (x :: rest))
    (hl : c.mp.lookup k = some x) : c.get k = some (valAt c.heap x, c) := by
  obtain ⟨n, R, hB⟩ : ∃ n R, rest ++ [c.tail] = n :: R := by
    cases rest with
    | nil => exact ⟨c.tail, [], rfl⟩
    | cons b l2 => exact ⟨b, l2 ++ [c.tail], rfl⟩
  have nd := inv.nodup
  have ch := inv.chain
  rw [List.cons_append, hB] at nd ch
  rw [List.chain'_cons, List.chain'_cons] at ch
  obtain ⟨⟨⟨nh, hh, hhx⟩, ⟨nx, hx, hxh⟩⟩, ⟨⟨nx', hx', hxn⟩, ⟨nn, hn, hnx⟩⟩, _⟩ := ch
  rw [hx] at hx'; cases hx'
  simp only [List.nodup_cons, List.mem_cons, not_or] at nd
  obtain ⟨⟨hne1, hne2, _⟩, ⟨hne3, _⟩, _, _⟩ := nd
  obtain ⟨c1, r1, fr1, rd1⟩ := removeNode_spec hx (by rw [hxh]; exact hh) (by rw [hxn]; exact hn)
    (by rw [hxh]; exact Ne.symm hne1) (by rw [hxh, hxn]; exact hne2)
  rw [hxh, hxn] at rd1
  have eh1 : c1.head = c.head := fr1.2.2.1
  have hh1 : c1.heap.read c1.head = some { nh with next := n } := by
    rw [eh1, rd1, if_neg hne2, if_pos rfl]
  have hx1 : c1.heap.read x = some nx := by
    rw [rd1, if_neg hne3, if_neg (Ne.symm hne1), hx]
  have hn1 : c1.heap.read n = some { nn with prev := c.head } := by
    rw [rd1, if_pos rfl]
  obtain ⟨c2, r2, fr2, rd2⟩ := insertAtFront_spec hh1 hx1 hn1 (by rw [eh1]; exact Ne.symm hne1)
    hne3 (by rw [eh1]; exact hne2)
  simp only [eh1] at rd2
  have hread : ∀ a, c2.heap.read a = c.heap.read a := by
    intro a
    rw [rd2, rd1]
    by_cases h1 : a = c.head
    · subst h1
      rw [if_pos rfl, hh]
      cases nh
      simp_all
    · rw [if_neg h1]
      by_cases h2 : a = n
      · subst h2
        rw [if_pos rfl, hn]
        cases nn
        simp_all
      · rw [if_neg h2, if_neg h2, if_neg h1]
        by_cases h3 : a = x
        · subst h3
          rw [if_pos rfl, hx]
          cases nx
          simp_all
        · rw [if_neg h3]
  have fr : SameFrame c c2 := by
    obtain ⟨a1, a2, a3, a4, a5⟩ := fr1
    obtain ⟨b1, b2, b3, b4, b5⟩ := fr2
    exact ⟨b1.trans a1, b2.trans a2, b3.trans a3, b4.trans a4, b5.trans a5⟩
  have e2 : c2 = c := ext_of_frame fr hread
  subst e2
  have hva : valAt c2.heap x = nx.val := by
    unfold LRU.valAt
    rw [hx]
  simp only [get, hl, r1, r2, hx, Option.bind_eq_bind, Option.some_bind, hva]

end LRUCache

/-! ## The effect of each call on the recency order -/

theorem map_erase_kv {as : List Nat} {x : Nat} (kf vf : Nat → Int)
    (nd : (as.map kf).Nodup) (hx : x ∈ as) :
    (as.erase x).map (fun a => (kf a, vf a))
      = (as.map fun a => (kf a, vf a)).filter fun e => e.1 != kf x := by
  have nd0 : as.Nodup := List.Nodup.of_map kf nd
  rw [List.Nodup.erase_eq_filter nd0, List.filter_map]
  congr 1
  apply List.filter_congr
  intro a ha
  by_cases hax : a = x
  · subst hax
    simp
  · have hk : kf a ≠ kf x := fun e => hax (List.inj_on_of_nodup_map nd ha hx e)
    have h1 : (a != x) = true := by simpa using hax
    have h2 : (kf a != kf x) = true := by simpa using hk
    simp only [Function.comp_apply, h1, h2]

theorem kvs_congr {h h1 : Heap} {as : List Nat}
    (hk : ∀ a ∈ as, keyAt h1 a = keyAt h a ∧ valAt h1 a = valAt h a) : kvs h1 as = kvs h as :=
  List.map_congr_left fun a ha => by rw [(hk a ha).1, (hk a ha).2]

theorem Inv.order_kvs {c : LRUCache} {as : List Nat} (inv : Inv c as) :
    c.order = some (kvs c.heap as) := inv.order_eq

namespace LRUCache

theorem get_hit_order {c : LRUCache} {as : List Nat} {k : Int} {x : Nat} (inv : Inv c as)
    (hl : c.mp.lookup k = some x) :
    ∃ c1, c.get k = some (valAt c.heap x, c1) ∧ Inv c1 (x :: as.erase x) ∧ c1.mp = c.mp ∧
      c1.capacity = c.capacity ∧
      kvs c1.heap (x :: as.erase x)
        = (k, valAt c.heap x) :: (kvs c.heap as).filter (fun e => e.1 != k) ∧
      ∀ a, keyAt c1.heap a = keyAt c.heap a ∧ valAt c1.heap a = valAt c.heap a := by
  obtain ⟨hx, hk⟩ := (inv.lookup_iff k x).mp hl
  obtain ⟨c1, e, inv1, fr, kv⟩ := get_hit inv hl
  refine ⟨c1, e, inv1, fr.2.1, fr.1, ?_, fun a => ⟨kv.keyAt a, kv.valAt a⟩⟩
  rw [kvs_congr (h := c.heap) fun a _ => ⟨kv.keyAt a, kv.valAt a⟩]
  unfold kvs
  rw [List.map_cons, hk, map_erase_kv _ _ inv.keys_nodup hx, hk]

theorem put_hit_order {c : LRUCache} {as : List Nat} {k : Int} {x : Nat} (inv : Inv c as)
    (hl : c.mp.lookup k = some x) (v : Int) :
    ∃ c1, c.put k v = some c1 ∧ Inv c1 (x :: as.erase x) ∧ c1.mp = c.mp ∧
      c1.capacity = c.capacity ∧
      kvs c1.heap (x :: as.erase x) = (k, v) :: (kvs c.heap as).filter (fun e => e.1 != k) ∧
      (∀ a, keyAt c1.heap a = keyAt c.heap a) ∧
      (∀ a, valAt c1.heap a = if a = x then v else valAt c.heap a) := by
  obtain ⟨hx, hk⟩ := (inv.lookup_iff k x).mp hl
  obtain ⟨c1, e, inv1, fr, hkey, hval⟩ := put_hit inv hl v
  refine ⟨c1, e, inv1, fr.2.1, fr.1, ?_, hkey, hval⟩
  have nd0 : as.Nodup := List.Nodup.of_map _ inv.keys_nodup
  have h1 : kvs c1.heap (as.erase x) = kvs c.heap (as.erase x) := by
    apply kvs_congr
    intro a ha
    have hax : a ≠ x := ((List.Nodup.mem_erase_iff nd0).mp ha).1
    exact ⟨hkey a, by rw [hval, if_neg hax]⟩
  have h2 : kvs c1.heap (x :: as.erase x) = (k, v) :: kvs c1.heap (as.erase x) := by
    unfold kvs
    rw [List.map_cons, hkey, hk, hval, if_pos rfl]
  rw [h2, h1]
  unfold kvs
  rw [map_erase_kv _ _ inv.keys_nodup hx, hk]

theorem put_miss_order {c : LRUCache} {as : List Nat} {k : Int} (inv : Inv c as)
    (hl : c.mp.lookup k = none) (hcap : 1 ≤ c.capacity) (v : Int) :
    ∃ c2 y, c.put k v = some c2 ∧
      Inv c2 (y :: if (as.length : Int) = c.capacity then as.dropLast else as) ∧
      c2.capacity = c.capacity ∧
      kvs c2.heap (y :: if (as.length : Int) = c.capacity then as.dropLast else as)
        = (k, v) :: (if (as.length : Int) = c.capacity then (kvs c.heap as).dropLast
            else kvs c.heap as) ∧
      keyAt c2.heap y = k ∧ valAt c2.heap y = v ∧
      (∀ a ∈ (if (as.length : Int) = c.capacity then as.dropLast else as),
        keyAt c2.heap a = keyAt c.heap a ∧ valAt c2.heap a = valAt c.heap a) := by
  obtain ⟨c2, y, e, inv2, ec, -, -, hk, hv, hold⟩ := put_miss inv hl hcap v
  refine ⟨c2, y, e, inv2, ec, ?_, hk, hv, hold⟩
  have h2 : ∀ l, kvs c2.heap (y :: l) = (k, v) :: kvs c2.heap l := by
    intro l
    unfold kvs
    rw [List.map_cons, hk, hv]
  rw [h2, kvs_congr hold]
  split_ifs
  · unfold kvs
    rw [List.map_dropLast]
  · rfl

end LRUCache

/-! ## The brute-force counter does not depend on the iteration order of the set -/

theorem lastUsedScan_lt (pages : List Int) (p : Int) (n : Nat) :
    lastUsedScan pages p n < (n : Int) := by
  induction n with
  | zero => simp [lastUsedScan]
  | succ j ih =>
    unfold lastUsedScan
    split_ifs
    · push_cast; omega
    · push_cast; omega

theorem lastUsedScan_get (pages : List Int) (p : Int) (n : Nat)
    (h : 0 ≤ lastUsedScan pages p n) :
    pages[(lastUsedScan pages p n).toNat]? = some p := by
  induction n with
  | zero => simp [lastUsedScan] at h
  | succ j ih =>
    unfold lastUsedScan at h ⊢
    split_ifs with hj
    · simpa using hj
    · rw [if_neg hj] at h
      exact ih h

theorem lastUsedScan_nonneg (pages : List Int) (p : Int) (n : Nat)
    (h : ∃ j, j < n ∧ pages[j]? = some p) : 0 ≤ lastUsedScan pages p n := by
  induction n with
  | zero =>
    obtain ⟨j, hj, _⟩ := h
    omega
  | succ m ih =>
    unfold lastUsedScan
    split_ifs with hm
    · omega
    · obtain ⟨j, hj, hp⟩ := h
      have : j ≠ m := by
        rintro rfl
        exact hm hp
      exact ih ⟨j, by omega, hp⟩

theorem lastUsedScan_inj (pages : List Int) (n : Nat) {p q : Int}
    (hp : ∃ j, j < n ∧ pages[j]? = some p)
    (e : lastUsedScan pages p n = lastUsedScan pages q n) : p = q := by
  have h1 := lastUsedScan_get pages p n (lastUsedScan_nonneg pages p n hp)
  have h2 := lastUsedScan_get pages q n (by rw [← e]; exact lastUsedScan_nonneg pages p n hp)
  rw [e, h2] at h1
  cases h1
  rfl

theorem findLRU_fold (pages : List Int) (i : Nat) (l : List Int) :
    ∀ st : Int × Int,
      (l.foldl (fun (st : Int × Int) (page : Int) =>
          if lastUsedScan pages page i < st.2 then (page, lastUsedScan pages page i) else st)
        st).2 ≤ st.2 ∧
      (∀ q ∈ l, (l.foldl (fun (st : Int × Int) (page : Int) =>
          if lastUsedScan pages page i < st.2 then (page, lastUsedScan pages page i) else st)
        st).2 ≤ lastUsedScan pages q i) ∧
      ((l.foldl (fun (st : Int × Int) (page : Int) =>
          if lastUsedScan pages page i < st.2 then (page, lastUsedScan pages page i) else st)
        st) = st ∨
        ((l.foldl (fun (st : Int × Int) (page : Int) =>
          if lastUsedScan pages page i < st.2 then (page, lastUsedScan pages page i) else st)
        st).1 ∈ l ∧
          lastUsedScan pages (l.foldl (fun (st : Int × Int) (page : Int) =>
          if lastUsedScan pages page i < st.2 then (page, lastUsedScan pages page i) else st)
        st).1 i = (l.foldl (fun (st : Int × Int) (page : Int) =>
          if lastUsedScan pages page i < st.2 then (page, lastUsedScan pages page i) else st)
        st).2)) := by
  induction l with
  | nil =>
    intro st
    simp
  | cons p l ih =>
    intro st
    rw [List.foldl_cons]
    by_cases hlt : lastUsedScan pages p i < st.2
    · rw [if_pos hlt]
      obtain ⟨h1, h2, h3⟩ := ih (p, lastUsedScan pages p i)
      simp only at h1
      refine ⟨by omega, ?_, ?_⟩
      · intro q hq
        rcases List.mem_cons.mp hq with rfl | hq
        · exact h1
        · exact h2 q hq
      · right
        rcases h3 with h3 | ⟨h3, h4⟩
        · rw [h3]
          exact ⟨List.mem_cons_self _ _, rfl⟩
        · exact ⟨List.mem_cons_of_mem _ h3, h4⟩
    · rw [if_neg hlt]
      obtain ⟨h1, h2, h3⟩ := ih st
      refine ⟨h1, ?_, ?_⟩
      · intro q hq
        rcases List.mem_cons.mp hq with rfl | hq
        · omega
        · exact h2 q hq
      · rcases h3 with h3 | ⟨h3, h4⟩
        · exact Or.inl h3
        · exact Or.inr ⟨List.mem_cons_of_mem _ h3, h4⟩

theorem findLRU_min (pages : List Int) (i : Nat) (l : List Int) (hne : l ≠ []) :
    findLRU pages i l ∈ l ∧
      ∀ q ∈ l, lastUsedScan pages (findLRU pages i l) i ≤ lastUsedScan pages q i := by
  obtain ⟨-, h2, h3⟩ := findLRU_fold pages i l (-1, (i : Int))
  obtain ⟨q0, hq0⟩ := List.exists_mem_of_ne_nil l hne
  have hlt := lastUsedScan_lt pages q0 i
  have hq := h2 q0 hq0
  unfold findLRU
  rcases h3 with h3 | ⟨h3, h4⟩
  · rw [h3] at hq
    simp only at hq
    omega
  · refine ⟨h3, fun q hq => ?_⟩
    rw [h4]
    exact h2 q hq

theorem findLRU_perm (pages : List Int) (i : Nat) {l l1 : List Int} (hp : l1.Perm l)
    (hocc : ∀ q ∈ l, ∃ j, j < i ∧ pages[j]? = some q) :
    findLRU pages i l1 = findLRU pages i l := by
  by_cases hne : l = []
  · subst hne
    rw [List.perm_nil.mp hp]
  · have hne1 : l1 ≠ [] := fun e => hne (by rw [e] at hp; exact List.nil_perm.mp hp)
    obtain ⟨m, hm⟩ := findLRU_min pages i l hne
    obtain ⟨m1, hm1⟩ := findLRU_min pages i l1 hne1
    have a1 := hm _ (hp.mem_iff.mp m1)
    have a2 := hm1 _ (hp.mem_iff.mpr m)
    exact (lastUsedScan_inj pages i (hocc _ m) (le_antisymm a1 a2)).symm

theorem bruteStep_visit (visit : List Int → List Int) (hv : ∀ l, (visit l).Perm l)
    (pages : List Int) (capacity : Int) (st : List Int × Nat) (i : Nat)
    (hocc : ∀ q ∈ st.1, ∃ j, j < i ∧ pages[j]? = some q) :
    bruteStep visit pages capacity st i = bruteStep id pages capacity st i := by
  unfold bruteStep
  rw [findLRU_perm pages i (hv st.1) hocc]
  rfl

theorem bruteStep_occ (pages : List Int) (capacity : Int) (st : List Int × Nat) (i : Nat)
    (hi : i < pages.length) (hocc : ∀ q ∈ st.1, ∃ j, j < i ∧ pages[j]? = some q) :
    ∀ q ∈ (bruteStep id pages capacity st i).1, ∃ j, j < i + 1 ∧ pages[j]? = some q := by
  intro q hq
  have hold : ∀ q ∈ st.1, ∃ j, j < i + 1 ∧ pages[j]? = some q := by
    intro q hq
    obtain ⟨j, hj, hp⟩ := hocc q hq
    exact ⟨j, by omega, hp⟩
  unfold bruteStep at hq
  simp only at hq
  split_ifs at hq with h1 h2
  · exact hold q hq
  · rcases List.mem_insert_iff.mp hq with rfl | hq
    · exact ⟨i, by omega, by simp [List.getD, List.getElem?_eq_getElem hi]⟩
    · exact hold q (List.mem_of_mem_erase hq)
  · rcases List.mem_insert_iff.mp hq with rfl | hq
    · exact ⟨i, by omega, by simp [List.getD, List.getElem?_eq_getElem hi]⟩
    · exact hold q hq

theorem toInt32_toNat_le (n : Nat) : (toInt32 n).toNat ≤ n := by
  unfold toInt32
  omega

theorem lruPageFaultsBruteLoop_eq_foldl (visit : List Int → List Int) (pages : List Int)
    (capacity : Int) (is : List Nat) :
    ∀ st : List Int × Nat, lruPageFaultsBruteLoop visit pages capacity is st
      = (is.foldl (bruteStep visit pages capacity) st).2 := by
  induction is with
  | nil => intro st; rfl
  | cons i is ih =>
    intro st
    rw [lruPageFaultsBruteLoop, ih, List.foldl_cons]

theorem lruPageFaultsBrute_eq_foldl (visit : List Int → List Int) (pages : List Int)
    (capacity : Int) :
    lruPageFaultsBrute visit pages capacity
      = ((List.range (toInt32 pages.length).toNat).foldl (bruteStep visit pages capacity)
          ([], 0)).2 := by
  unfold lruPageFaultsBrute
  rw [lruPageFaultsBruteLoop_eq_foldl]

theorem lruPageFaultsBrute_of_nonpos (visit : List Int → List Int) (pages : List Int)
    (capacity : Int) (h : toInt32 pages.length ≤ 0) :
    lruPageFaultsBrute visit pages capacity = 0 := by
  rw [lruPageFaultsBrute_eq_foldl, Int.toNat_of_nonpos h, List.range_zero, List.foldl_nil]

theorem brute_fold_visit (visit : List Int → List Int) (hv : ∀ l, (visit l).Perm l)
    (pages : List Int) (capacity : Int) (n : Nat) (hn : n ≤ pages.length) :
    (List.range n).foldl (bruteStep visit pages capacity) ([], 0)
        = (List.range n).foldl (bruteStep id pages capacity) ([], 0) ∧
      ∀ q ∈ ((List.range n).foldl (bruteStep id pages capacity) ([], 0)).1,
        ∃ j, j < n ∧ pages[j]? = some q := by
  induction n with
  | zero => simp
  | succ m ih =>
    obtain ⟨e, hocc⟩ := ih (by omega)
    rw [List.range_succ, List.foldl_append, List.foldl_append, e]
    simp only [List.foldl_cons, List.foldl_nil]
    exact ⟨bruteStep_visit visit hv pages capacity _ m hocc,
      bruteStep_occ pages capacity _ m (by omega) hocc⟩

theorem brute_visit_irrelevant (visit : List Int → List Int) (hv : ∀ l, (visit l).Perm l)
    (pages : List Int) (capacity : Int) :
    lruPageFaultsBrute visit pages capacity = lruPageFaultsBrute id pages capacity := by
  rw [lruPageFaultsBrute_eq_foldl, lruPageFaultsBrute_eq_foldl,
    (brute_fold_visit visit hv pages capacity _ (toInt32_toNat_le pages.length)).1]

/-! ## The recency order is the truncated touch history -/

theorem firstOccurrences_nodup (l : List Int) : (firstOccurrences l).Nodup := by
  induction l with
  | nil => simp [firstOccurrences]
  | cons k ks ih =>
    unfold firstOccurrences
    rw [List.nodup_cons]
    exact ⟨by simp [List.mem_filter], ih.filter _⟩

theorem mem_firstOccurrences (l : List Int) (x : Int) : x ∈ firstOccurrences l ↔ x ∈ l := by
  induction l with
  | nil => simp [firstOccurrences]
  | cons k ks ih =>
    unfold firstOccurrences
    simp only [List.mem_cons, List.mem_filter, ih]
    by_cases h : x = k
    · simp [h]
    · simp [h]

theorem recency_snoc (ts : List Int) (k : Int) :
    recency (ts ++ [k]) = k :: (recency ts).filter fun x => x != k := by
  unfold recency
  rw [List.reverse_append]
  rfl

theorem take_filter_of_not_mem (k : Int) (H : List Int) :
    ∀ m, k ∉ H.take m → (H.filter fun x => x != k).take m = H.take m := by
  induction H with
  | nil => intro m _; simp
  | cons a H ih =>
    intro m hk
    cases m with
    | zero => simp
    | succ m =>
      rw [List.take_succ_cons, List.mem_cons, not_or] at hk
      have hak : (a != k) = true := by simpa using fun e => hk.1 (e.symm)
      rw [List.filter_cons_of_pos (p := fun x => x != k) hak, List.take_succ_cons,
        List.take_succ_cons, ih m hk.2]

theorem take_filter_of_mem (k : Int) (H : List Int) (nd : H.Nodup) :
    ∀ m, k ∈ H.take (m + 1) →
      (H.filter fun x => x != k).take m = (H.take (m + 1)).filter fun x => x != k := by
  induction H with
  | nil => intro m hk; simp at hk
  | cons a H ih =>
    intro m hk
    rw [List.nodup_cons] at nd
    rw [List.take_succ_cons] at hk ⊢
    by_cases hak : a = k
    · subst hak
      have hf : ∀ l : List Int, a ∉ l → (l.filter fun x => x != a) = l := by
        intro l hl
        rw [List.filter_eq_self]
        intro x hx
        have : x ≠ a := by
          rintro rfl
          exact hl hx
        simpa using this
      have h1 : ((a :: H).filter fun x => x != a) = H := by
        rw [List.filter_cons_of_neg (p := fun x => x != a) (by simp), hf H nd.1]
      have h2 : ((a :: H.take m).filter fun x => x != a) = H.take m := by
        rw [List.filter_cons_of_neg (p := fun x => x != a) (by simp),
          hf _ (fun h => nd.1 (List.mem_of_mem_take h))]
      rw [h1, h2]
    · have hak1 : (a != k) = true := by simpa using hak
      rw [List.filter_cons_of_pos (p := fun x => x != k) hak1,
        List.filter_cons_of_pos (p := fun x => x != k) hak1]
      rcases List.mem_cons.mp hk with h | h
      · exact absurd h.symm hak
      · cases m with
        | zero => simp at h
        | succ m => rw [List.take_succ_cons, ih nd.2 m h]

theorem recency_take_hit (H : List Int) (nd : H.Nodup) (k : Int) (n : Nat)
    (hk : k ∈ H.take n) :
    (k :: H.filter fun x => x != k).take n = k :: (H.take n).filter fun x => x != k := by
  cases n with
  | zero => simp at hk
  | succ m => rw [List.take_succ_cons, take_filter_of_mem k H nd m hk]

theorem recency_take_miss (H : List Int) (k : Int) (n : Nat) (hn : 1 ≤ n)
    (hk : k ∉ H.take n) :
    (k :: H.filter fun x => x != k).take n
      = k :: if (H.take n).length = n then (H.take n).dropLast else H.take n := by
  obtain ⟨m, rfl⟩ : ∃ m, n = m + 1 := ⟨n - 1, by omega⟩
  have hk1 : k ∉ H.take m := fun h => hk (List.take_subset_take_left H (by omega) h)
  rw [List.take_succ_cons, take_filter_of_not_mem k H m hk1]
  congr 1
  split_ifs with hlen
  · rw [List.length_take] at hlen
    rw [List.dropLast_eq_take, List.take_take, List.length_take]
    congr 1
    omega
  · rw [List.length_take] at hlen
    rw [List.take_of_length_le (by omega), List.take_of_length_le (by omega)]

theorem map_fst_filter (l : List (Int × Int)) (k : Int) :
    (l.filter fun e => e.1 != k).map Prod.fst = (l.map Prod.fst).filter fun x => x != k := by
  rw [List.filter_map]
  rfl

/-! ## Reachable states -/

theorem sampleFull_reachable : Reachable 2 sampleFull :=
  ⟨_, [.put 1 1, .put 2 2], rfl, rfl⟩

theorem resident_iff_lookup {c : LRUCache} {k : Int} :
    c.resident k ↔ ∃ x, c.mp.lookup k = some x := by
  unfold LRUCache.resident
  exact Option.isSome_iff_exists

theorem not_resident_iff {c : LRUCache} {k : Int} : ¬ c.resident k ↔ c.mp.lookup k = none := by
  unfold LRUCache.resident
  cases c.mp.lookup k <;> simp

theorem Inv.value_of_mem {c : LRUCache} {as : List Nat} (inv : Inv c as) {x : Nat}
    (hx : x ∈ as) : c.value (keyAt c.heap x) = some (valAt c.heap x) :=
  inv.value_eq ((inv.lookup_iff _ x).mpr ⟨hx, rfl⟩)

theorem kvs_fst (h : Heap) (as : List Nat) : (kvs h as).map Prod.fst = as.map (keyAt h) := by
  simp [kvs, List.map_map, Function.comp_def]

theorem run_touches (ops : List Op) :
    ∀ (c : LRUCache) (as : List Nat) (pre : List Int), Inv c as → 1 ≤ c.capacity →
      as.map (keyAt c.heap) = (recency pre).take c.capacity.toNat →
      ∃ c1 as1, run c ops = some c1 ∧ Inv c1 as1 ∧ c1.capacity = c.capacity ∧
        as1.map (keyAt c1.heap) = (recency (pre ++ touches c ops)).take c.capacity.toNat := by
  induction ops with
  | nil =>
    intro c as pre inv _ hk
    exact ⟨c, as, rfl, inv, rfl, by simpa [touches] using hk⟩
  | cons o ops ih =>
    intro c as pre inv hcap hkeys
    have hnd : (recency pre).Nodup := firstOccurrences_nodup _
    cases o with
    | get k =>
      cases hl : c.mp.lookup k with
      | none =>
        have hg : c.get k = some (-1, c) := by unfold LRUCache.get; rw [hl]
        have hres : ¬ c.resident k := not_resident_iff.mpr hl
        obtain ⟨c1, as1, e1, inv1, ec1, hk1⟩ := ih c as pre inv hcap hkeys
        refine ⟨c1, as1, ?_, inv1, ec1, ?_⟩
        · simp [run, step, hg, e1]
        · simpa [touches, hg, hres] using hk1
      | some x =>
        obtain ⟨c1, e, inv1, em, ec, hkv, -⟩ := LRUCache.get_hit_order inv hl
        have hres : c.resident k := resident_iff_lookup.mpr ⟨x, hl⟩
        have hmem : k ∈ (recency pre).take c.capacity.toNat := by
          rw [← hkeys]
          obtain ⟨hx, hxk⟩ := (inv.lookup_iff k x).mp hl
          exact List.mem_map.mpr ⟨x, hx, hxk⟩
        have hkeys1 : (x :: as.erase x).map (keyAt c1.heap)
            = (recency (pre ++ [k])).take c1.capacity.toNat := by
          rw [← kvs_fst, hkv, List.map_cons, map_fst_filter, kvs_fst, hkeys, ec, recency_snoc,
            recency_take_hit _ hnd k _ hmem]
        obtain ⟨c2, as2, e2, inv2, ec2, hk2⟩ :=
          ih c1 _ (pre ++ [k]) inv1 (by rw [ec]; exact hcap) hkeys1
        refine ⟨c2, as2, ?_, inv2, by rw [ec2, ec], ?_⟩
        · simp [run, step, e, e2]
        · rw [ec] at hk2
          simpa [touches, e, hres] using hk2
    | put k v =>
      cases hl : c.mp.lookup k with
      | none =>
        obtain ⟨c1, y, e, inv1, ec, hkv, -, -, -⟩ := LRUCache.put_miss_order inv hl hcap v
        have hnmem : k ∉ (recency pre).take c.capacity.toNat := by
          rw [← hkeys]
          intro hm
          obtain ⟨x, hx, hxk⟩ := List.mem_map.mp hm
          exact (inv.lookup_none k).mp hl x hx hxk
        have hlen : ((as.length : Int) = c.capacity)
            ↔ ((recency pre).take c.capacity.toNat).length = c.capacity.toNat := by
          rw [← hkeys, List.length_map]
          omega
        have hkeys1 : (y :: if (as.length : Int) = c.capacity then as.dropLast else as).map
            (keyAt c1.heap) = (recency (pre ++ [k])).take c1.capacity.toNat := by
          rw [← kvs_fst, hkv, List.map_cons, ec, recency_snoc,
            recency_take_miss _ k _ (by omega) hnmem]
          congr 1
          by_cases hf : (as.length : Int) = c.capacity
          · rw [if_pos hf, if_pos (hlen.mp hf), List.map_dropLast, kvs_fst, hkeys]
          · rw [if_neg hf, if_neg (fun h => hf (hlen.mpr h)), kvs_fst, hkeys]
        obtain ⟨c2, as2, e2, inv2, ec2, hk2⟩ :=
          ih c1 _ (pre ++ [k]) inv1 (by rw [ec]; exact hcap) hkeys1
        refine ⟨c2, as2, ?_, inv2, by rw [ec2, ec], ?_⟩
        · simp [run, step, e, e2]
        · rw [ec] at hk2
          simpa [touches, e] using hk2
      | some x =>
        obtain ⟨c1, e, inv1, em, ec, hkv, -, -⟩ := LRUCache.put_hit_order inv hl v
        have hmem : k ∈ (recency pre).take c.capacity.toNat := by
          rw [← hkeys]
          obtain ⟨hx, hxk⟩ := (inv.lookup_iff k x).mp hl
          exact List.mem_map.mpr ⟨x, hx, hxk⟩
        have hkeys1 : (x :: as.erase x).map (keyAt c1.heap)
            = (recency (pre ++ [k])).take c1.capacity.toNat := by
          rw [← kvs_fst, hkv, List.map_cons, map_fst_filter, kvs_fst, hkeys, ec, recency_snoc,
            recency_take_hit _ hnd k _ hmem]
        obtain ⟨c2, as2, e2, inv2, ec2, hk2⟩ :=
          ih c1 _ (pre ++ [k]) inv1 (by rw [ec]; exact hcap) hkeys1
        refine ⟨c2, as2, ?_, inv2, by rw [ec2, ec], ?_⟩
        · simp [run, step, e, e2]
        · rw [ec] at hk2
          simpa [touches, e] using hk2

theorem recency_length (ts : List Int) : (recency ts).length = ts.toFinset.card := by
  have h : (recency ts).toFinset = ts.toFinset := by
    ext x
    simp [recency, mem_firstOccurrences]
  rw [← h]
  exact (List.toFinset_card_of_nodup (firstOccurrences_nodup _)).symm

/-! ## Two references to the same page -/

theorem countPageFaultsLoop_twice {c0 c1 : LRUCache} {p : Int}
    (hget0 : c0.get p = some (-1, c0)) (hput : c0.put p p = some c1)
    (hget1 : c1.get p = some (-1, c1)) (hput1 : c1.put p p = some c1) :
    LRUCache.countPageFaultsLoop c0 0 [p, p] = some (2, c1) := by
  simp only [LRUCache.countPageFaultsLoop, hget0, hput, hget1, hput1, Option.bind_eq_bind,
    Option.some_bind, if_true]

theorem fresh_put_minus_one (cap : Int) (h0 : ¬ toInt32 0 = cap) :
    LRUCache.put ⟨cap, [], 1, 2, [none, some ⟨-1, -1, 0, 2⟩, some ⟨-1, -1, 1, 0⟩]⟩ (-1) (-1)
      = some ⟨cap, [(-1, 3)], 1, 2,
        [none, some ⟨-1, -1, 0, 3⟩, some ⟨-1, -1, 3, 0⟩, some ⟨-1, -1, 1, 2⟩]⟩ := by
  unfold LRUCache.put
  simp only [List.lookup, List.length, if_neg h0]
  rfl

/-! ## Well-formedness of the sentinel-bounded list -/

theorem chain_succ {h : Heap} (l : List Nat) (t : Nat)
    (ch : List.Chain' (link h) (l ++ [t])) : ∀ a ∈ l, ∃ b, link h a b := by
  induction l with
  | nil => intro a ha; cases ha
  | cons x l ih =>
    intro a ha
    cases l with
    | nil =>
      simp at ha
      subst ha
      exact ⟨t, List.chain'_pair.mp ch⟩
    | cons y l =>
      rw [List.cons_append, List.cons_append, List.chain'_cons] at ch
      rcases List.mem_cons.mp ha with rfl | ha
      · exact ⟨y, ch.1⟩
      · exact ih ch.2 a ha

theorem nodes_of_chain {c : LRUCache} {as : List Nat}
    (nd : (c.head :: (as ++ [c.tail])).Nodup)
    (ch : List.Chain' (link c.heap) (c.head :: (as ++ [c.tail]))) :
    c.nodes = some (as.map fun a => (a, nodeAt c.heap a)) := by
  obtain ⟨nh, hh⟩ := chain_read ch c.head (by simp) (by simp)
  have ht : c.tail ∉ as := by
    intro hm
    have nd2 := (List.nodup_cons.mp nd).2
    exact (List.nodup_append.mp nd2).2.2 hm (List.mem_singleton_self _)
  have hlen : as.length < c.heap.length := by
    have hsub : (c.head :: (as ++ [c.tail])) ⊆ List.range c.heap.length := by
      intro a ha
      obtain ⟨n, hn⟩ := chain_read ch a ha (by simp)
      exact List.mem_range.mpr (Heap.read_lt hn)
    have := (List.subperm_of_subset nd hsub).length_le
    simp at this
    omega
  unfold LRUCache.nodes
  rw [hh]
  exact walk_chain as c.head nh _ ch ht hh hlen

theorem listWF_of_chain {c : LRUCache} {as : List Nat}
    (nd : (c.head :: (as ++ [c.tail])).Nodup)
    (ch : List.Chain' (link c.heap) (c.head :: (as ++ [c.tail]))) : ListWF c as := by
  refine ⟨?_, ?_, ?_, ?_⟩
  · rw [nodes_of_chain nd ch]
    simp [List.map_map, Function.comp_def]
  · intro a ha
    have ch1 : List.Chain' (link c.heap) ((c.head :: as) ++ [c.tail]) := by simpa using ch
    obtain ⟨b, ⟨n, hn, hnb⟩, ⟨m, hm, hma⟩⟩ := chain_succ (c.head :: as) c.tail ch1 a ha
    exact ⟨n, m, hn, by rw [hnb]; exact hm, hma⟩
  · obtain ⟨f, R, hB⟩ : ∃ f R, as ++ [c.tail] = f :: R := by
      cases as with
      | nil => exact ⟨c.tail, [], rfl⟩
      | cons b l2 => exact ⟨b, l2 ++ [c.tail], rfl⟩
    rw [hB] at ch ⊢
    rw [List.chain'_cons] at ch
    obtain ⟨⟨⟨nh, hh, hhf⟩, _⟩, _⟩ := ch
    simp [hh, hhf]
  · obtain ⟨L, z, hA⟩ : ∃ L z, c.head :: as = L ++ [z] := by
      rcases List.eq_nil_or_concat (c.head :: as) with h | ⟨L, z, h⟩
      · cases h
      · exact ⟨L, z, by simpa using h⟩
    have ch1 : List.Chain' (link c.heap) (L ++ z :: [c.tail]) := by
      have e : c.head :: (as ++ [c.tail]) = (c.head :: as) ++ [c.tail] := by simp
      rw [e, hA] at ch
      simpa using ch
    obtain ⟨_, ⟨t, ht, htz⟩⟩ := List.chain'_pair.mp (List.chain'_split.mp ch1).2
    rw [hA]
    simp [ht, htz]

theorem Inv.listWF {c : LRUCache} {as : List Nat} (inv : Inv c as) : ListWF c as :=
  listWF_of_chain inv.nodup inv.chain

theorem front_new_spec {c : LRUCache} {as : List Nat} (k v : Int)
    (nd : (c.head :: (as ++ [c.tail])).Nodup)
    (ch : List.Chain' (link c.heap) (c.head :: (as ++ [c.tail]))) :
    ∃ c1, LRUCache.insertAtFront ⟨c.capacity, c.mp, c.head, c.tail, (c.heap.alloc k v).2⟩
        (c.heap.alloc k v).1 = some c1 ∧
      ListWF c1 ((c.heap.alloc k v).1 :: as) := by
  have hne : ∀ a ∈ c.head :: (as ++ [c.tail]), a ≠ c.heap.length := by
    intro a ha e
    obtain ⟨n, hn⟩ := chain_read ch a ha (by simp)
    have := Heap.read_lt hn
    omega
  have rd1 := Heap.read_alloc c.heap k v
  have hlink : ∀ a b, a ∈ c.head :: (as ++ [c.tail]) → b ∈ c.head :: (as ++ [c.tail]) →
      link c.heap a b → link (c.heap.alloc k v).2 a b := by
    intro a b ha hb ⟨⟨na, ea, hab⟩, ⟨nb, eb, hba⟩⟩
    exact ⟨⟨na, by rw [rd1, if_neg (hne a ha), ea], hab⟩,
      ⟨nb, by rw [rd1, if_neg (hne b hb), eb], hba⟩⟩
  have ch0 := chain_frame ch hlink
  have nd0 : (c.head :: c.heap.length :: (as ++ [c.tail])).Nodup := by
    simp only [List.nodup_cons, List.mem_cons, not_or] at nd ⊢
    refine ⟨⟨?_, nd.1⟩, ?_, nd.2⟩
    · exact hne c.head (by simp)
    · intro hm
      exact hne _ (List.mem_cons_of_mem _ hm) rfl
  have hy : Heap.read (c.heap.alloc k v).2 c.heap.length = some ⟨k, v, 0, 0⟩ := by
    rw [rd1, if_pos rfl]
  obtain ⟨c1, r1, fr, ch1, -, -⟩ :=
    @LRUCache.front_spec ⟨c.capacity, c.mp, c.head, c.tail, (c.heap.alloc k v).2⟩ as
      c.heap.length _ nd0 ch0 hy
  obtain ⟨-, -, eh, et, -⟩ := fr
  simp only at eh et ch1
  refine ⟨c1, r1, ?_⟩
  apply listWF_of_chain
  · rw [eh, et]; exact nd0
  · rw [eh, et]; exact ch1

/-! ## The address of a new entry -/

theorem put_miss_at {c : LRUCache} {as : List Nat} {k : Int} (inv : Inv c as)
    (hl : c.mp.lookup k = none) (hcap : 1 ≤ c.capacity) (v : Int) :
    ∃ c2, c.put k v = some c2 ∧
      Inv c2 (c.heap.length :: if (as.length : Int) = c.capacity then as.dropLast else as) ∧
      c2.capacity = c.capacity ∧ c2.head = c.head ∧ c2.tail = c.tail ∧
      keyAt c2.heap c.heap.length = k ∧ valAt c2.heap c.heap.length = v ∧
      (∀ a ∈ (if (as.length : Int) = c.capacity then as.dropLast else as),
        keyAt c2.heap a = keyAt c.heap a ∧ valAt c2.heap a = valAt c.heap a) := by
  by_cases hfull : (as.length : Int) = c.capacity
  · have hne : as ≠ [] := by
      rintro rfl
      simp at hfull
      omega
    obtain ⟨as1, z, rfl⟩ : ∃ as1 z, as = as1 ++ [z] := by
      rcases List.eq_nil_or_concat as with h | ⟨L, b, h⟩
      · exact absurd h hne
      · exact ⟨L, b, by simpa using h⟩
    obtain ⟨t, nz, c1, h2, cb, ht, htz, hnz, r1, ef, hcb, invb, hlt, emb, ecb, ehb, etb, elb,
      holdb⟩ := LRUCache.evict_spec inv
    have hlb : cb.mp.lookup k = none := by
      rw [invb.lookup_none]
      intro x hx
      rw [(holdb x hx).1]
      exact (inv.lookup_none k).mp hl x (by simp [hx])
    obtain ⟨c2, e2, inv2, em2, ec2, eh2, et2, hk2, hv2, hold2⟩ := LRUCache.insert_new invb hlb hlt v
    rw [elb] at inv2 hk2 hv2
    refine ⟨c2, ?_, ?_, by rw [ec2, ecb], by rw [eh2, ehb], by rw [et2, etb], hk2, hv2, ?_⟩
    · unfold LRUCache.put
      rw [hl]
      dsimp only []
      rw [if_pos (inv.full_iff.mpr hfull)]
      simp only [ht, htz, hnz, r1, ef, Option.bind_eq_bind, Option.some_bind]
      subst hcb
      exact e2
    · rw [if_pos hfull, List.dropLast_concat]
      exact inv2
    · rw [if_pos hfull, List.dropLast_concat]
      intro a ha
      exact ⟨(hold2 a ha).1.trans (holdb a ha).1, (hold2 a ha).2.trans (holdb a ha).2⟩
  · have hlt : (as.length : Int) < c.capacity := lt_of_le_of_ne inv.size_le hfull
    obtain ⟨c2, e2, inv2, em2, ec2, eh2, et2, hk2, hv2, hold2⟩ := LRUCache.insert_new inv hl hlt v
    refine ⟨c2, ?_, ?_, ec2, eh2, et2, hk2, hv2, ?_⟩
    · unfold LRUCache.put
      rw [hl]
      dsimp only []
      rw [if_neg (fun h => hfull (inv.full_iff.mp h))]
      simp only [Option.bind_eq_bind, Option.some_bind]
      exact e2
    · rw [if_neg hfull]
      exact inv2
    · rw [if_neg hfull]
      exact hold2
/-! ## The three counters count the misses of the LRU stack -/

theorem stackFaults_snoc (n : Nat) (xs : List Int) (p : Int) :
    ∀ pre, stackFaults n pre (xs ++ [p])
      = stackFaults n pre xs + (if p ∈ (recency (pre ++ xs)).take n then 0 else 1) := by
  induction xs with
  | nil => intro pre; simp [stackFaults]
  | cons x xs ih =>
    intro pre
    have e1 : stackFaults n pre (x :: xs ++ [p])
        = (if x ∈ (recency pre).take n then 0 else 1)
          + stackFaults n (pre ++ [x]) (xs ++ [p]) := rfl
    have e2 : stackFaults n pre (x :: xs)
        = (if x ∈ (recency pre).take n then 0 else 1) + stackFaults n (pre ++ [x]) xs := rfl
    have e3 : pre ++ [x] ++ xs = pre ++ x :: xs := by simp
    rw [e1, e2, ih (pre ++ [x]), e3]
    omega

theorem OptInv.find_iff {dll : List (Nat × Int)} {fresh : Nat} {mp : List (Int × Nat)}
    (inv : OptInv dll fresh mp) (p : Int) (it : Nat) :
    mp.lookup p = some it ↔ (it, p) ∈ dll := by
  have hk : (mp.map Prod.fst).Perm (dll.map Prod.snd) := by
    have := inv.mp_perm.map Prod.fst
    simpa [List.map_map, Function.comp_def] using this
  have nd : (mp.map Prod.fst).Nodup := hk.nodup_iff.mpr inv.pages_nodup
  have hm : (p, it) ∈ mp ↔ (it, p) ∈ dll := by
    rw [inv.mp_perm.mem_iff]
    simp only [List.mem_map, Prod.mk.injEq]
    constructor
    · rintro ⟨⟨a, b⟩, he, rfl, rfl⟩
      exact he
    · intro he
      exact ⟨(it, p), he, rfl, rfl⟩
  exact ⟨fun h => hm.mp (lookup_mem h), fun h => mem_lookup nd (hm.mpr h)⟩

theorem OptInv.find_none {dll : List (Nat × Int)} {fresh : Nat} {mp : List (Int × Nat)}
    (inv : OptInv dll fresh mp) (p : Int) : mp.lookup p = none ↔ p ∉ dll.map Prod.snd := by
  have hk : (mp.map Prod.fst).Perm (dll.map Prod.snd) := by
    have := inv.mp_perm.map Prod.fst
    simpa [List.map_map, Function.comp_def] using this
  rw [lookup_none_iff, hk.mem_iff]

theorem OptInv.filter_page {dll : List (Nat × Int)} {fresh : Nat} {mp : List (Int × Nat)}
    (inv : OptInv dll fresh mp) {p : Int} {it : Nat} (h : (it, p) ∈ dll) :
    dll.filter (fun nd => nd.1 != it) = dll.filter (fun nd => nd.2 != p) := by
  apply List.filter_congr
  intro e he
  by_cases h1 : e.1 = it
  · have : e = (it, p) := List.inj_on_of_nodup_map inv.ids_nodup he h h1
    subst this
    simp
  · have h2 : e.2 ≠ p := by
      intro h2
      have : e = (it, p) := List.inj_on_of_nodup_map inv.pages_nodup he h h2
      exact h1 (by rw [this])
    have a1 : (e.1 != it) = true := by simpa using h1
    have a2 : (e.2 != p) = true := by simpa using h2
    rw [a1, a2]

theorem OptInv.push {dll : List (Nat × Int)} {fresh : Nat} {mp : List (Int × Nat)}
    (inv : OptInv dll fresh mp) {p : Int} (hp : p ∉ dll.map Prod.snd) :
    OptInv ((fresh, p) :: dll) (fresh + 1) (mapSet mp p fresh) := by
  refine ⟨?_, ?_, ?_, ?_⟩
  · rw [List.map_cons, List.nodup_cons]
    refine ⟨?_, inv.ids_nodup⟩
    intro hm
    obtain ⟨e, he, h1⟩ := List.mem_map.mp hm
    have := inv.ids_lt e he
    omega
  · intro e he
    rcases List.mem_cons.mp he with rfl | he
    · simp
    · have := inv.ids_lt e he
      omega
  · rw [List.map_cons, List.nodup_cons]
    exact ⟨hp, inv.pages_nodup⟩
  · unfold mapSet
    rw [LRUCache.mapErase_absent ((inv.find_none p).mpr hp), List.map_cons]
    exact inv.mp_perm.cons _

theorem OptInv.remove {dll : List (Nat × Int)} {fresh : Nat} {mp : List (Int × Nat)}
    (inv : OptInv dll fresh mp) (p : Int) :
    OptInv (dll.filter fun nd => nd.2 != p) fresh (mapErase mp p) := by
  have hsub : (dll.filter fun nd => nd.2 != p).Sublist dll := List.filter_sublist _
  refine ⟨(hsub.map _).nodup inv.ids_nodup, fun e he => inv.ids_lt e (hsub.subset he),
    (hsub.map _).nodup inv.pages_nodup, ?_⟩
  unfold mapErase
  have := inv.mp_perm.filter (fun e => e.1 != p)
  refine this.trans ?_
  rw [List.filter_map]
  rfl

theorem dropLast_eq_filter (dll : List (Nat × Int)) (z : Nat × Int)
    (nd : ((dll ++ [z]).map Prod.snd).Nodup) :
    (dll ++ [z]).filter (fun nd => nd.2 != z.2) = dll := by
  rw [List.map_append, List.nodup_append] at nd
  rw [List.filter_append]
  have h1 : dll.filter (fun nd => nd.2 != z.2) = dll := by
    rw [List.filter_eq_self]
    intro e he
    have : e.2 ≠ z.2 := fun h => nd.2.2 (List.mem_map.mpr ⟨e, he, rfl⟩) (by simp [h])
    simpa using this
  rw [h1]
  simp

theorem optimal_stack (cap : Int) (hcap : 1 ≤ cap) (hint : cap < 2 ^ 31) (pages : List Int) :
    ∀ (dll : List (Nat × Int)) (fresh : Nat) (mp : List (Int × Nat)) (pre : List Int)
      (acc : Nat), OptInv dll fresh mp →
      dll.map Prod.snd = (recency pre).take cap.toNat →
      lruPageFaultsOptimalLoop cap pages dll fresh mp acc
        = some (acc + stackFaults cap.toNat pre pages) := by
  induction pages with
  | nil =>
    intro dll fresh mp pre acc _ _
    simp [lruPageFaultsOptimalLoop, stackFaults]
  | cons p rest ih =>
    intro dll fresh mp pre acc inv hkeys
    have hnd : (recency pre).Nodup := firstOccurrences_nodup _
    have hlenle : dll.length ≤ cap.toNat := by
      have := congrArg List.length hkeys
      rw [List.length_map, List.length_take] at this
      omega
    cases hl : mp.lookup p with
    | some it =>
      have hmem0 : (it, p) ∈ dll := (inv.find_iff p it).mp hl
      have hany : dll.any (fun nd => nd.1 == it) = true := by
        rw [List.any_eq_true]
        exact ⟨(it, p), hmem0, by simp⟩
      have hmem : p ∈ (recency pre).take cap.toNat := by
        rw [← hkeys]
        exact List.mem_map.mpr ⟨(it, p), hmem0, rfl⟩
      have inv1 := (inv.remove p).push (p := p) (by
        intro hm
        obtain ⟨e, he, h1⟩ := List.mem_map.mp hm
        have := (List.mem_filter.mp he).2
        simp [h1] at this)
      have hm1 : mapSet (mapErase mp p) p fresh = mapSet mp p fresh := by
        unfold mapSet mapErase
        rw [List.filter_filter]
        simp
      rw [hm1, ← inv.filter_page hmem0] at inv1
      have hkeys1 : ((fresh, p) :: dll.filter fun nd => nd.1 != it).map Prod.snd
          = (recency (pre ++ [p])).take cap.toNat := by
        rw [inv.filter_page hmem0, List.map_cons, recency_snoc,
          recency_take_hit _ hnd p _ hmem, ← hkeys, List.filter_map]
        rfl
      have := ih _ (fresh + 1) _ (pre ++ [p]) acc inv1 hkeys1
      simp only [lruPageFaultsOptimalLoop, hl, hany, if_true, this, stackFaults, if_pos hmem,
        Nat.zero_add]
    | none =>
      have hnot : p ∉ dll.map Prod.snd := (inv.find_none p).mp hl
      have hnmem : p ∉ (recency pre).take cap.toNat := by rw [← hkeys]; exact hnot
      have hfull : toInt32 dll.length = cap ↔ dll.length = cap.toNat := by
        rw [toInt32_of_lt (by omega)]
        omega
      have hlen2 : ((recency pre).take cap.toNat).length = dll.length := by
        rw [← hkeys, List.length_map]
      by_cases hf : dll.length = cap.toNat
      · obtain ⟨d1, z, rfl⟩ : ∃ d1 z, dll = d1 ++ [z] := by
          rcases List.eq_nil_or_concat dll with h | ⟨L, b, h⟩
          · subst h
            simp at hf
            omega
          · exact ⟨L, b, by simpa using h⟩
        have hlast : (d1 ++ [z]).getLast? = some z := List.getLast?_concat _
        have hdf := dropLast_eq_filter d1 z inv.pages_nodup
        have invr := inv.remove z.2
        rw [hdf] at invr
        have hp1 : p ∉ d1.map Prod.snd := by
          intro hm
          apply hnot
          rw [List.map_append]
          exact List.mem_append_left _ hm
        have inv1 := invr.push hp1
        have hkeys1 : ((fresh, p) :: d1).map Prod.snd
            = (recency (pre ++ [p])).take cap.toNat := by
          rw [List.map_cons, recency_snoc, recency_take_miss _ p _ (by omega) hnmem,
            if_pos (by rw [hlen2]; exact hf), ← hkeys, List.map_append, List.map_singleton,
            List.dropLast_concat]
        have := ih _ (fresh + 1) _ (pre ++ [p]) (acc + 1) inv1 hkeys1
        simp only [lruPageFaultsOptimalLoop, hl, if_pos (hfull.mpr hf), hlast,
          List.dropLast_concat, this, stackFaults, if_neg hnmem]
        simp only [Nat.add_assoc]
      · have inv1 := inv.push hnot
        have hkeys1 : ((fresh, p) :: dll).map Prod.snd
            = (recency (pre ++ [p])).take cap.toNat := by
          rw [List.map_cons, recency_snoc, recency_take_miss _ p _ (by omega) hnmem,
            if_neg (by rw [hlen2]; exact hf), ← hkeys]
        have := ih _ (fresh + 1) _ (pre ++ [p]) (acc + 1) inv1 hkeys1
        simp only [lruPageFaultsOptimalLoop, hl, if_neg (fun h => hf (hfull.mp h)), this,
          stackFaults, if_neg hnmem]
        simp only [Nat.add_assoc]

theorem optimal_eq_stack (cap : Int) (hcap : 1 ≤ cap) (hint : cap < 2 ^ 31)
    (pages : List Int) :
    lruPageFaultsOptimal pages cap = some (stackFaults cap.toNat [] pages) := by
  unfold lruPageFaultsOptimal
  rw [optimal_stack cap hcap hint pages [] 0 [] [] 0 ⟨by simp, by simp, by simp, by simp⟩
    (by simp [recency, firstOccurrences]), Nat.zero_add]
theorem lastUsedScan_succ (pages : List Int) (q : Int) (k : Nat) :
    lastUsedScan pages q (k + 1)
      = if pages[k]? = some q then (k : Int) else lastUsedScan pages q k := rfl

theorem getD_eq_some (pages : List Int) (k : Nat) (hk : k < pages.length) :
    pages[k]? = some (pages.getD k 0) := by
  simp [List.getD, List.getElem?_eq_getElem hk]

theorem take_succ_eq (pages : List Int) (k : Nat) (hk : k < pages.length) :
    pages.take (k + 1) = pages.take k ++ [pages.getD k 0] := by
  rw [List.take_succ, getD_eq_some pages k hk]
  rfl

theorem recency_sorted (pages : List Int) (k : Nat) (hk : k ≤ pages.length) :
    (recency (pages.take k)).Pairwise
      fun x y => lastUsedScan pages y k < lastUsedScan pages x k := by
  induction k with
  | zero => simp [recency, firstOccurrences]
  | succ k ih =>
    have hk1 : k < pages.length := by omega
    rw [take_succ_eq pages k hk1, recency_snoc, List.pairwise_cons]
    have hp := getD_eq_some pages k hk1
    have hne : ∀ y, y ≠ pages.getD k 0 →
        lastUsedScan pages y (k + 1) = lastUsedScan pages y k := by
      intro y hy
      rw [lastUsedScan_succ, if_neg]
      rw [hp]
      intro h
      cases h
      exact hy rfl
    have hfm : ∀ y ∈ (recency (pages.take k)).filter (fun x => x != pages.getD k 0),
        y ≠ pages.getD k 0 := by
      intro y hy
      simpa using (List.mem_filter.mp hy).2
    constructor
    · intro y hy
      rw [hne y (hfm y hy), lastUsedScan_succ, if_pos hp]
      exact lastUsedScan_lt pages y k
    · refine List.Pairwise.imp_of_mem ?_ ((ih (by omega)).filter _)
      intro a b ha hb hab
      rw [hne a (hfm a ha), hne b (hfm b hb)]
      exact hab

theorem findLRU_last (pages : List Int) (k n : Nat) (hk : k ≤ pages.length)
    (L1 : List Int) (z : Int) (hL : (recency (pages.take k)).take n = L1 ++ [z])
    (fr : List Int) (hfr : fr.Perm (L1 ++ [z])) : findLRU pages k fr = z := by
  have hs := (recency_sorted pages k hk).sublist (List.take_sublist n _)
  rw [hL, List.pairwise_append] at hs
  have hne : fr ≠ [] := by
    intro h
    rw [h] at hfr
    have := hfr.length_eq
    simp at this
  obtain ⟨hm, hmin⟩ := findLRU_min pages k fr hne
  have hz : z ∈ fr := hfr.mem_iff.mpr (by simp)
  have h1 := hmin z hz
  rcases List.mem_append.mp (hfr.mem_iff.mp hm) with h | h
  · have := hs.2.2 _ h z (by simp)
    omega
  · simpa using h

theorem bruteStep_stack (visit : List Int → List Int) (hv : ∀ l, (visit l).Perm l)
    (pages : List Int) (cap : Int) (hcap : 1 ≤ cap) (hint : cap < 2 ^ 31) (k : Nat)
    (hk : k < pages.length) (st : List Int × Nat)
    (hfr : st.1.Perm ((recency (pages.take k)).take cap.toNat)) :
    (bruteStep visit pages cap st k).1.Perm ((recency (pages.take (k + 1))).take cap.toNat) ∧
      (bruteStep visit pages cap st k).2
        = st.2 + (if pages.getD k 0 ∈ (recency (pages.take k)).take cap.toNat then 0 else 1) := by
  have hnd : (recency (pages.take k)).Nodup := firstOccurrences_nodup _
  have hndL : ((recency (pages.take k)).take cap.toNat).Nodup :=
    hnd.sublist (List.take_sublist _ _)
  have hndf : st.1.Nodup := hfr.nodup_iff.mpr hndL
  rw [take_succ_eq pages k hk, recency_snoc]
  unfold bruteStep
  by_cases hmem : pages.getD k 0 ∈ st.1
  · have hmemL := hfr.mem_iff.mp hmem
    simp only [if_pos hmem, if_pos hmemL, Nat.add_zero, and_true]
    rw [recency_take_hit _ hnd _ _ hmemL, ← List.Nodup.erase_eq_filter hndL]
    exact hfr.trans (List.perm_cons_erase hmemL)
  · have hmemL : pages.getD k 0 ∉ (recency (pages.take k)).take cap.toNat :=
      fun h => hmem (hfr.mem_iff.mpr h)
    simp only [if_neg hmem, if_neg hmemL, and_true]
    rw [recency_take_miss _ _ _ (by omega) hmemL]
    have hlen : st.1.length = ((recency (pages.take k)).take cap.toNat).length :=
      hfr.length_eq
    have hle : ((recency (pages.take k)).take cap.toNat).length ≤ cap.toNat := by
      rw [List.length_take]
      omega
    have hfull : toInt32 st.1.length = cap
        ↔ ((recency (pages.take k)).take cap.toNat).length = cap.toNat := by
      rw [toInt32_of_lt (by omega), hlen]
      omega
    by_cases hf : ((recency (pages.take k)).take cap.toNat).length = cap.toNat
    · rw [if_pos (hfull.mpr hf), if_pos hf]
      obtain ⟨L1, z, hL⟩ : ∃ L1 z, (recency (pages.take k)).take cap.toNat = L1 ++ [z] := by
        rcases List.eq_nil_or_concat ((recency (pages.take k)).take cap.toNat)
          with h | ⟨L, b, h⟩
        · rw [h] at hf
          simp at hf
          omega
        · exact ⟨L, b, by simpa using h⟩
      have hfr1 : st.1.Perm (L1 ++ [z]) := by rw [← hL]; exact hfr
      rw [findLRU_last pages k cap.toNat (by omega) L1 z hL _ ((hv st.1).trans hfr1), hL,
        List.dropLast_concat]
      have hz : z ∉ L1 := by
        rw [hL] at hndL
        intro h
        exact (List.nodup_append.mp hndL).2.2 h (List.mem_singleton_self z)
      have he : (st.1.erase z).Perm L1 := by
        have := hfr1.erase z
        rw [List.erase_append_right _ hz] at this
        simpa using this
      have hnm : pages.getD k 0 ∉ st.1.erase z := fun h => hmem (List.mem_of_mem_erase h)
      rw [List.insert_of_not_mem hnm]
      exact he.cons _
    · rw [if_neg (fun h => hf (hfull.mp h)), if_neg hf, List.insert_of_not_mem hmem]
      exact hfr.cons _

theorem brute_fold_stack (visit : List Int → List Int) (hv : ∀ l, (visit l).Perm l)
    (pages : List Int) (cap : Int) (hcap : 1 ≤ cap) (hint : cap < 2 ^ 31) (k : Nat)
    (hk : k ≤ pages.length) :
    ((List.range k).foldl (bruteStep visit pages cap) ([], 0)).1.Perm
        ((recency (pages.take k)).take cap.toNat) ∧
      ((List.range k).foldl (bruteStep visit pages cap) ([], 0)).2
        = stackFaults cap.toNat [] (pages.take k) := by
  induction k with
  | zero => simp [recency, firstOccurrences, stackFaults]
  | succ k ih =>
    obtain ⟨h1, h2⟩ := ih (by omega)
    rw [List.range_succ, List.foldl_append]
    simp only [List.foldl_cons, List.foldl_nil]
    obtain ⟨s1, s2⟩ := bruteStep_stack visit hv pages cap hcap hint k (by omega) _ h1
    refine ⟨s1, ?_⟩
    rw [s2, h2, take_succ_eq pages k (by omega), stackFaults_snoc, List.nil_append]

theorem brute_eq_stack (visit : List Int → List Int) (hv : ∀ l, (visit l).Perm l)
    (pages : List Int) (cap : Int) (hcap : 1 ≤ cap) (hint : cap < 2 ^ 31)
    (hlen : pages.length < 2 ^ 31) :
    lruPageFaultsBrute visit pages cap = stackFaults cap.toNat [] pages := by
  have e : (toInt32 pages.length).toNat = pages.length := by
    rw [toInt32_of_lt hlen]
    omega
  rw [lruPageFaultsBrute_eq_foldl, e,
    (brute_fold_stack visit hv pages cap hcap hint pages.length le_rfl).2, List.take_length]

/-- Below `2 ^ 31` references `lruPageFaultsBrute` and `lruPageFaultsOptimal` agree, for
every capacity `1 ≤ cap` (an `int`) and every order in which the set of frames is
iterated; and whenever the resident pages, the `cap` most recently used ones, end with `z`
in recency order, `findLRU` returns `z` whatever the order in which it visits them. -/
theorem brute_eq_optimal_of_short (visit : List Int → List Int)
    (hv : ∀ l, (visit l).Perm l) (cap : Int) (pages : List Int) (hcap : 1 ≤ cap)
    (hint : cap < 2 ^ 31) (hlen : pages.length < 2 ^ 31) :
    lruPageFaultsOptimal pages cap = some (lruPageFaultsBrute visit pages cap) ∧
      ∀ (k : Nat) (L1 : List Int) (z : Int) (fr : List Int), k ≤ pages.length →
        (recency (pages.take k)).take cap.toNat = L1 ++ [z] → fr.Perm (L1 ++ [z]) →
        findLRU pages k fr = z := by
  refine ⟨?_, ?_⟩
  · rw [brute_eq_stack visit hv pages cap hcap hint hlen]
    exact optimal_eq_stack cap hcap hint pages
  · intro k L1 z fr hk hL hfr
    exact findLRU_last pages k cap.toNat hk L1 z hL fr hfr

theorem stackFaults_same_page (m : Nat) :
    ∀ pre : List Int, (recency pre).take 1 = [0] →
      stackFaults 1 pre (List.replicate m 0) = 0 := by
  induction m with
  | zero => intro pre _; rfl
  | succ m ih =>
    intro pre h
    rw [List.replicate_succ]
    have e : stackFaults 1 pre (0 :: List.replicate m 0)
        = (if (0 : Int) ∈ (recency pre).take 1 then 0 else 1)
          + stackFaults 1 (pre ++ [0]) (List.replicate m 0) := rfl
    rw [e, h, if_pos (List.mem_singleton_self _), ih (pre ++ [0]) (by rw [recency_snoc]; rfl)]

theorem stackFaults_replicate_pos (n : Nat) (hn : 0 < n) :
    stackFaults 1 [] (List.replicate n 0) = 1 := by
  obtain ⟨m, rfl⟩ := Nat.exists_eq_succ_of_ne_zero (Nat.pos_iff_ne_zero.mp hn)
  rw [List.replicate_succ]
  have e : stackFaults 1 [] (0 :: List.replicate m 0)
      = (if (0 : Int) ∈ (recency []).take 1 then 0 else 1)
        + stackFaults 1 ([] ++ [0]) (List.replicate m 0) := rfl
  have h0 : (0 : Int) ∉ (recency []).take 1 := by simp [recency, firstOccurrences]
  rw [e, if_neg h0, stackFaults_same_page m _ (by rw [recency_snoc]; rfl)]

/-! # The claims -/

/-- C1: for a cache reachable from a fresh `LRUCache(cap)` with `1 ≤ cap` (an `int`) and a
key `k` that is not resident, `put(k, v)` returns, and the recency order becomes `(k, v)`
followed by the old order, which loses its last entry exactly when the old size equals the
capacity; `k` then has value `v`, the evicted key is no longer resident, and every other
resident key keeps its value. -/
theorem C1_put_absent_key (cap : Int) (c : LRUCache) (k v : Int) (hcap : 1 ≤ cap)
    (hint : cap < 2 ^ 31) (hr : Reachable cap c) (hk : ¬ c.resident k) :
    ∃ l c1, c.order = some l ∧ c.put k v = some c1 ∧
      c1.order = some ((k, v) :: if (c.mp.length : Int) = cap then l.dropLast else l) ∧
      c1.value k = some v ∧
      (∀ e, (c.mp.length : Int) = cap → l.getLast? = some e → ¬ c1.resident e.1) ∧
      (∀ k1, c.resident k1 →
        ((c.mp.length : Int) = cap → l.getLast?.map Prod.fst ≠ some k1) →
        c1.value k1 = c.value k1) := by
  obtain ⟨as, inv, ec⟩ := reachable_inv hcap hint hr
  have hl := not_resident_iff.mp hk
  obtain ⟨c2, y, e, inv2, ec2, hkv, hky, hvy, hold⟩ :=
    LRUCache.put_miss_order inv hl (by rw [ec]; exact hcap) v
  rw [ec] at inv2 hkv hold
  rw [inv.size]
  refine ⟨kvs c.heap as, c2, inv.order_kvs, e, ?_, ?_, ?_, ?_⟩
  · rw [inv2.order_kvs, hkv]
  · have := inv2.value_of_mem (x := y) (by simp)
    rw [hky, hvy] at this
    exact this
  · intro e1 hfull hlast hres
    rw [if_pos hfull] at inv2 hold
    obtain ⟨ys, hys⟩ := List.getLast?_eq_some_iff.mp hlast
    obtain ⟨as1, z, rfl⟩ : ∃ as1 z, as = as1 ++ [z] := by
      rcases List.eq_nil_or_concat as with h | ⟨L, b, h⟩
      · subst h
        simp [kvs] at hys
      · exact ⟨L, b, by simpa using h⟩
    have he1 : e1.1 = keyAt c.heap z := by
      have : (kvs c.heap (as1 ++ [z])).getLast? = some (keyAt c.heap z, valAt c.heap z) := by
        simp [kvs]
      rw [hlast] at this
      cases this
      rfl
    rw [List.dropLast_concat] at inv2 hold
    obtain ⟨x, hx⟩ := resident_iff_lookup.mp hres
    obtain ⟨hxm, hxk⟩ := (inv2.lookup_iff _ _).mp hx
    rcases List.mem_cons.mp hxm with rfl | hxm
    · rw [hky, he1] at hxk
      exact (inv.lookup_none k).mp hl z (by simp) hxk.symm
    · rw [(hold x hxm).1, he1] at hxk
      have knd := inv.keys_nodup
      rw [List.map_append, List.nodup_append] at knd
      exact knd.2.2 (List.mem_map.mpr ⟨x, hxm, rfl⟩) (by simp [hxk])
  · intro k1 hres hne
    obtain ⟨x, hx⟩ := resident_iff_lookup.mp hres
    obtain ⟨hxm, hxk⟩ := (inv.lookup_iff _ _).mp hx
    have hx2 : x ∈ (if (as.length : Int) = cap then as.dropLast else as) := by
      split_ifs with hfull
      · obtain ⟨as1, z, rfl⟩ : ∃ as1 z, as = as1 ++ [z] := by
          rcases List.eq_nil_or_concat as with h | ⟨L, b, h⟩
          · subst h
            cases hxm
          · exact ⟨L, b, by simpa using h⟩
        rw [List.dropLast_concat]
        rcases List.mem_append.mp hxm with h | h
        · exact h
        · exfalso
          simp at h
          subst h
          apply hne hfull
          simp [kvs, hxk]
      · exact hxm
    have h2 := inv2.value_of_mem (x := x) (List.mem_cons_of_mem _ hx2)
    rw [(hold x hx2).1, (hold x hx2).2, hxk] at h2
    rw [h2, inv.value_eq hx]

/-- C1 at `LRUCache(2)` holding keys 1 and 2: `put(3, 3)` evicts key 1. -/
theorem C1_put_absent_key_witness :
    ∃ l c1, sampleFull.order = some l ∧ sampleFull.put 3 3 = some c1 ∧
      c1.order = some ((3, 3) :: if (sampleFull.mp.length : Int) = 2 then l.dropLast else l) ∧
      c1.value 3 = some 3 ∧
      (∀ e, (sampleFull.mp.length : Int) = 2 → l.getLast? = some e → ¬ c1.resident e.1) ∧
      (∀ k1, sampleFull.resident k1 →
        ((sampleFull.mp.length : Int) = 2 → l.getLast?.map Prod.fst ≠ some k1) →
        c1.value k1 = sampleFull.value k1) :=
  C1_put_absent_key 2 sampleFull 3 3 (by decide) (by decide) sampleFull_reachable (by decide)

/-- C2: for a reachable cache and a resident key `k`, `get(k)` returns the value stored for
`k`; afterwards `k` is first in the recency order, the other entries keep their relative
order, and the resident keys and all stored values are unchanged. -/
theorem C2_get_resident_key (cap : Int) (c : LRUCache) (k : Int) (hcap : 1 ≤ cap)
    (hint : cap < 2 ^ 31) (hr : Reachable cap c) (hk : c.resident k) :
    ∃ l v c1, c.order = some l ∧ c.value k = some v ∧ c.get k = some (v, c1) ∧
      c1.order = some ((k, v) :: l.filter fun e => e.1 != k) ∧
      (∀ k1, c1.resident k1 ↔ c.resident k1) ∧ (∀ k1, c1.value k1 = c.value k1) := by
  obtain ⟨as, inv, -⟩ := reachable_inv hcap hint hr
  obtain ⟨x, hl⟩ := resident_iff_lookup.mp hk
  obtain ⟨c1, e, inv1, em, -, hkv, hold⟩ := LRUCache.get_hit_order inv hl
  refine ⟨kvs c.heap as, valAt c.heap x, c1, inv.order_kvs, inv.value_eq hl, e, ?_, ?_, ?_⟩
  · rw [inv1.order_kvs, hkv]
  · intro k1
    unfold LRUCache.resident
    rw [em]
  · intro k1
    cases hl1 : c.mp.lookup k1 with
    | none => rw [value_none hl1, value_none (by rw [em]; exact hl1)]
    | some a => rw [inv.value_eq hl1, inv1.value_eq (by rw [em]; exact hl1), (hold a).2]

/-- C2 at `LRUCache(2)` holding keys 1 and 2: `get(1)`. -/
theorem C2_get_resident_key_witness :
    ∃ l v c1, sampleFull.order = some l ∧ sampleFull.value 1 = some v ∧
      sampleFull.get 1 = some (v, c1) ∧
      c1.order = some ((1, v) :: l.filter fun e => e.1 != 1) ∧
      (∀ k1, c1.resident k1 ↔ sampleFull.resident k1) ∧
      (∀ k1, c1.value k1 = sampleFull.value k1) :=
  C2_get_resident_key 2 sampleFull 1 (by decide) (by decide) sampleFull_reachable (by decide)

/-- C3: for every cache state (reachable or not) and every key `k` that is not resident,
`get(k)` returns the miss indicator `-1` and leaves the whole cache state unchanged. -/
theorem C3_get_absent_key (c : LRUCache) (k : Int) (hk : ¬ c.resident k) :
    c.get k = some (-1, c) := by
  unfold LRUCache.get
  rw [not_resident_iff.mp hk]

/-- C3 at `LRUCache(2)` holding keys 1 and 2: `get(7)`. -/
theorem C3_get_absent_key_witness : sampleFull.get 7 = some (-1, sampleFull) :=
  C3_get_absent_key sampleFull 7 (by decide)

/-- C4: for a reachable cache and a resident key `k`, `put(k, v)` returns; `k` then has
value `v` and is first in the recency order, the other entries keep their relative order
and their values, the size is unchanged and the resident keys are the same (no eviction). -/
theorem C4_put_resident_key (cap : Int) (c : LRUCache) (k v : Int) (hcap : 1 ≤ cap)
    (hint : cap < 2 ^ 31) (hr : Reachable cap c) (hk : c.resident k) :
    ∃ l c1, c.order = some l ∧ c.put k v = some c1 ∧
      c1.order = some ((k, v) :: l.filter fun e => e.1 != k) ∧
      c1.value k = some v ∧ c1.mp.length = c.mp.length ∧
      (∀ k1, c1.resident k1 ↔ c.resident k1) ∧
      (∀ k1, k1 ≠ k → c1.value k1 = c.value k1) := by
  obtain ⟨as, inv, -⟩ := reachable_inv hcap hint hr
  obtain ⟨x, hl⟩ := resident_iff_lookup.mp hk
  obtain ⟨c1, e, inv1, em, -, hkv, hkey, hval⟩ := LRUCache.put_hit_order inv hl v
  refine ⟨kvs c.heap as, c1, inv.order_kvs, e, ?_, ?_, by rw [em], ?_, ?_⟩
  · rw [inv1.order_kvs, hkv]
  · rw [inv1.value_eq (by rw [em]; exact hl), hval, if_pos rfl]
  · intro k1
    unfold LRUCache.resident
    rw [em]
  · intro k1 hne
    cases hl1 : c.mp.lookup k1 with
    | none => rw [value_none hl1, value_none (by rw [em]; exact hl1)]
    | some a =>
      have hax : a ≠ x := by
        rintro rfl
        have h1 := ((inv.lookup_iff _ _).mp hl1).2
        have h2 := ((inv.lookup_iff _ _).mp hl).2
        exact hne (h1.symm.trans h2)
      rw [inv.value_eq hl1, inv1.value_eq (by rw [em]; exact hl1), hval, if_neg hax]

/-- C4 at `LRUCache(2)` holding keys 1 and 2: `put(1, 9)`. -/
theorem C4_put_resident_key_witness :
    ∃ l c1, sampleFull.order = some l ∧ sampleFull.put 1 9 = some c1 ∧
      c1.order = some ((1, 9) :: l.filter fun e => e.1 != 1) ∧
      c1.value 1 = some 9 ∧ c1.mp.length = sampleFull.mp.length ∧
      (∀ k1, c1.resident k1 ↔ sampleFull.resident k1) ∧
      (∀ k1, k1 ≠ 1 → c1.value k1 = sampleFull.value k1) :=
  C4_put_resident_key 2 sampleFull 1 9 (by decide) (by decide) sampleFull_reachable (by decide)

/-- C5: for every capacity `1 ≤ cap` (an `int`) and every finite sequence of `get`/`put`
calls on a fresh `LRUCache(cap)`, every call returns and afterwards the map holds at most
`cap` entries, as does the list. Every prefix of a sequence is a sequence, so this is the
bound after each call. -/
theorem C5_size_le_capacity (cap : Int) (hcap : 1 ≤ cap) (hint : cap < 2 ^ 31)
    (ops : List Op) :
    ∃ c0 c ns, LRUCache.new cap = some c0 ∧ run c0 ops = some c ∧
      (c.mp.length : Int) ≤ cap ∧ c.nodes = some ns ∧ (ns.length : Int) ≤ cap := by
  obtain ⟨c, as, e, inv, ec⟩ := inv_run (LRUCache.new_inv (by omega) hint) hcap ops
  have ec1 : c.capacity = cap := ec
  refine ⟨_, c, _, LRUCache.new_eq cap, e, ?_, inv.nodes_eq, ?_⟩
  · rw [inv.size, ← ec1]
    exact inv.size_le
  · rw [List.length_map, ← ec1]
    exact inv.size_le

/-- C5 at capacity 1 with three insertions. -/
theorem C5_size_le_capacity_witness :
    ∃ c0 c ns, LRUCache.new 1 = some c0 ∧ run c0 [.put 1 1, .put 2 2, .put 3 3] = some c ∧
      (c.mp.length : Int) ≤ 1 ∧ c.nodes = some ns ∧ (ns.length : Int) ≤ 1 :=
  C5_size_le_capacity 1 (by decide) (by decide) [.put 1 1, .put 2 2, .put 3 3]

/-- C6: for every capacity `1 ≤ cap` (an `int`) and every sequence of `get`/`put` calls on
a fresh cache, every call returns and afterwards a key is in the map iff exactly one list
entry between the sentinels has that key, the map sends each key to the address of the
list entry holding it, and the map size is the number of real list entries. -/
theorem C6_map_list_agree (cap : Int) (hcap : 1 ≤ cap) (hint : cap < 2 ^ 31)
    (ops : List Op) :
    ∃ c0 c ns, LRUCache.new cap = some c0 ∧ run c0 ops = some c ∧ c.nodes = some ns ∧
      (∀ k, c.resident k ↔ (ns.map fun e => e.2.key).count k = 1) ∧
      (∀ k a, c.mp.lookup k = some a → ∃ n, (a, n) ∈ ns ∧ n.key = k) ∧
      c.mp.length = ns.length := by
  obtain ⟨c, as, e, inv, -⟩ := inv_run (LRUCache.new_inv (by omega) hint) hcap ops
  have hkeys : ((as.map fun a => (a, nodeAt c.heap a)).map fun e => e.2.key)
      = as.map (keyAt c.heap) := by
    simp [List.map_map, Function.comp_def, nodeAt_key]
  refine ⟨_, c, _, LRUCache.new_eq cap, e, inv.nodes_eq, ?_, ?_, ?_⟩
  · intro k
    rw [hkeys, resident_iff_lookup]
    constructor
    · rintro ⟨x, hx⟩
      obtain ⟨hxm, hxk⟩ := (inv.lookup_iff _ _).mp hx
      exact List.count_eq_one_of_mem inv.keys_nodup (List.mem_map.mpr ⟨x, hxm, hxk⟩)
    · intro hc
      have hm : k ∈ as.map (keyAt c.heap) := List.count_pos_iff.mp (by omega)
      obtain ⟨x, hxm, hxk⟩ := List.mem_map.mp hm
      exact ⟨x, (inv.lookup_iff _ _).mpr ⟨hxm, hxk⟩⟩
  · intro k a hl
    obtain ⟨hxm, hxk⟩ := (inv.lookup_iff _ _).mp hl
    exact ⟨nodeAt c.heap a, List.mem_map.mpr ⟨a, hxm, rfl⟩, by rw [nodeAt_key, hxk]⟩
  · rw [inv.size, List.length_map]

/-- C6 at capacity 2 with an eviction and a hit. -/
theorem C6_map_list_agree_witness :
    ∃ c0 c ns, LRUCache.new 2 = some c0 ∧
      run c0 [.put 1 1, .put 2 2, .get 1, .put 3 3] = some c ∧ c.nodes = some ns ∧
      (∀ k, c.resident k ↔ (ns.map fun e => e.2.key).count k = 1) ∧
      (∀ k a, c.mp.lookup k = some a → ∃ n, (a, n) ∈ ns ∧ n.key = k) ∧
      c.mp.length = ns.length :=
  C6_map_list_agree 2 (by decide) (by decide) [.put 1 1, .put 2 2, .get 1, .put 3 3]

/-- C7: for every capacity `1 ≤ cap` (an `int`) and every sequence of `get`/`put` calls on
a fresh cache, every call returns and the keys read from the MRU end of the recency list
are the first `min(cap, number of distinct touched keys)` keys of the touch history ordered
by most recent touch first without repetition, a touch of `k` being a `put(k, _)` or a
`get(k)` that hits. -/
theorem C7_recency_is_touch_history (cap : Int) (hcap : 1 ≤ cap) (hint : cap < 2 ^ 31)
    (ops : List Op) :
    ∃ c0 c l, LRUCache.new cap = some c0 ∧ run c0 ops = some c ∧ c.order = some l ∧
      l.map Prod.fst
        = (recency (touches c0 ops)).take (min cap.toNat (touches c0 ops).toFinset.card) := by
  obtain ⟨c, as, e, inv, -, hk⟩ :=
    run_touches ops _ [] [] (LRUCache.new_inv (by omega) hint) hcap
      (by simp [recency, firstOccurrences])
  refine ⟨_, c, _, LRUCache.new_eq cap, e, inv.order_kvs, ?_⟩
  rw [kvs_fst, hk, List.nil_append, ← recency_length, ← List.take_take, List.take_length]

/-- C7 at capacity 2: after `put 1, put 2, get 1, get 5 (miss), put 3` the keys are
`[3, 1]`. -/
theorem C7_recency_is_touch_history_witness :
    ∃ c0 c l, LRUCache.new 2 = some c0 ∧
      run c0 [.put 1 1, .put 2 2, .get 1, .get 5, .put 3 3] = some c ∧ c.order = some l ∧
      l.map Prod.fst
        = (recency (touches c0 [.put 1 1, .put 2 2, .get 1, .get 5, .put 3 3])).take
            (min (2 : Int).toNat
              (touches c0 [.put 1 1, .put 2 2, .get 1, .get 5, .put 3 3]).toFinset.card) :=
  C7_recency_is_touch_history 2 (by decide) (by decide)
    [.put 1 1, .put 2 2, .get 1, .get 5, .put 3 3]

/-- C8: for a reachable cache and a resident key `k`, two consecutive calls `get(k)` both
return, with the same value, and the second call leaves the cache state (map, sentinels
and every cell of the list) exactly as the first call left it. -/
theorem C8_get_twice (cap : Int) (c : LRUCache) (k : Int) (hcap : 1 ≤ cap)
    (hint : cap < 2 ^ 31) (hr : Reachable cap c) (hk : c.resident k) :
    ∃ v c1, c.get k = some (v, c1) ∧ c1.get k = some (v, c1) := by
  obtain ⟨as, inv, -⟩ := reachable_inv hcap hint hr
  obtain ⟨x, hl⟩ := resident_iff_lookup.mp hk
  obtain ⟨c1, e, inv1, fr, kv⟩ := LRUCache.get_hit inv hl
  refine ⟨valAt c.heap x, c1, e, ?_⟩
  rw [LRUCache.get_mru inv1 (by rw [fr.2.1]; exact hl), kv.valAt]

/-- C8 at `LRUCache(2)` holding keys 1 and 2: `get(1); get(1)`. -/
theorem C8_get_twice_witness :
    ∃ v c1, sampleFull.get 1 = some (v, c1) ∧ c1.get 1 = some (v, c1) :=
  C8_get_twice 2 sampleFull 1 (by decide) (by decide) sampleFull_reachable (by decide)

/-- C9, the code at the input of the claim: on `[7,0,1,2,0,3,0,4,2,3,0,3,2]` with capacity
3, `countPageFaults` on a fresh `LRUCache(3)`, `lruPageFaultsOptimal` and
`lruPageFaultsBrute` (whatever the order in which the set of frames is iterated) each return
9, where the example of the header and the comments in `main` state 7. -/
theorem C9_reference_string_faults (visit : List Int → List Int)
    (hv : ∀ l, (visit l).Perm l) :
    countPageFaultsFresh pages1 3 = some 9 ∧ lruPageFaultsOptimal pages1 3 = some 9 ∧
      lruPageFaultsBrute visit pages1 3 = 9 := by
  refine ⟨by decide, by decide, ?_⟩
  rw [brute_visit_irrelevant visit hv]
  decide

/-- C9 with the set iterated in reverse order. -/
theorem C9_reference_string_faults_witness :
    countPageFaultsFresh pages1 3 = some 9 ∧ lruPageFaultsOptimal pages1 3 = some 9 ∧
      lruPageFaultsBrute List.reverse pages1 3 = 9 :=
  C9_reference_string_faults List.reverse fun l => List.reverse_perm l

/-- C10, the code at the input of the claim: on `[1,2,3,4,1,2,5,1,2,3,4,5]` with capacity
3, `countPageFaults` on a fresh `LRUCache(3)`, `lruPageFaultsOptimal` and
`lruPageFaultsBrute` (whatever the order in which the set of frames is iterated) each return
10, where the comments in `main` state 8. -/
theorem C10_second_string_faults (visit : List Int → List Int)
    (hv : ∀ l, (visit l).Perm l) :
    countPageFaultsFresh pages2 3 = some 10 ∧ lruPageFaultsOptimal pages2 3 = some 10 ∧
      lruPageFaultsBrute visit pages2 3 = 10 := by
  refine ⟨by decide, by decide, ?_⟩
  rw [brute_visit_irrelevant visit hv]
  decide

/-- C10 with the set iterated in reverse order. -/
theorem C10_second_string_faults_witness :
    countPageFaultsFresh pages2 3 = some 10 ∧ lruPageFaultsOptimal pages2 3 = some 10 ∧
      lruPageFaultsBrute List.reverse pages2 3 = 10 :=
  C10_second_string_faults List.reverse fun l => List.reverse_perm l

/-- C11 as stated fails: `LRUCache(0)` is constructed like any other cache. -/
theorem C11_counterexample : LRUCache.new 0 ≠ none := by
  decide

/-- C11, amended: the constructor checks nothing. For every `cap`, also `cap < 1`, it
returns a cache instance with that capacity, an empty map and the two sentinels linked to
each other. -/
theorem C11_constructor_accepts_any_capacity (cap : Int) :
    ∃ c, LRUCache.new cap = some c ∧ c.capacity = cap ∧ c.mp = [] ∧
      c.nodes = some [] ∧
      (c.heap.read c.head).map DLLNode.next = some c.tail ∧
      (c.heap.read c.tail).map DLLNode.prev = some c.head :=
  ⟨_, rfl, rfl, rfl, rfl, rfl, rfl⟩

/-- C20: for `pages = [-1, -1]` and every capacity `1 ≤ cap` (an `int`), `countPageFaults`
on a fresh cache returns 2 while `lruPageFaultsOptimal` returns 1; the cache is left
holding the single entry `(-1, -1)`. -/
theorem C20_page_minus_one_counted_twice (cap : Int) (hcap : 1 ≤ cap) (hint : cap < 2 ^ 31) :
    countPageFaultsFresh [-1, -1] cap = some 2 ∧ lruPageFaultsOptimal [-1, -1] cap = some 1 ∧
      ∃ c0 c, LRUCache.new cap = some c0 ∧
        c0.countPageFaultsLoop 0 [-1, -1] = some (2, c) ∧ c.order = some [(-1, -1)] ∧
        c.mp.length = 1 := by
  have h0 : ¬ toInt32 0 = cap := by
    unfold toInt32
    omega
  have hloop := @countPageFaultsLoop_twice
    ⟨cap, [], 1, 2, [none, some ⟨-1, -1, 0, 2⟩, some ⟨-1, -1, 1, 0⟩]⟩
    ⟨cap, [(-1, 3)], 1, 2,
      [none, some ⟨-1, -1, 0, 3⟩, some ⟨-1, -1, 3, 0⟩, some ⟨-1, -1, 1, 2⟩]⟩
    (-1) rfl (fresh_put_minus_one cap h0) rfl rfl
  refine ⟨?_, ?_, _, _, LRUCache.new_eq cap, hloop, rfl, rfl⟩
  · unfold countPageFaultsFresh LRUCache.countPageFaults
    rw [LRUCache.new_eq, Option.some_bind, hloop]
    rfl
  · unfold lruPageFaultsOptimal
    simp only [lruPageFaultsOptimalLoop, List.lookup, List.length, if_neg h0]
    rfl

/-- C20 at capacity 3. -/
theorem C20_page_minus_one_counted_twice_witness :
    countPageFaultsFresh [-1, -1] 3 = some 2 ∧ lruPageFaultsOptimal [-1, -1] 3 = some 1 ∧
      ∃ c0 c, LRUCache.new 3 = some c0 ∧
        c0.countPageFaultsLoop 0 [-1, -1] = some (2, c) ∧ c.order = some [(-1, -1)] ∧
        c.mp.length = 1 :=
  C20_page_minus_one_counted_twice 3 (by decide) (by decide)

/-- C17: for every capacity `1 ≤ cap` (an `int`) and every sequence of `get`/`put` calls on
a fresh cache, every call returns and the sentinel-bounded list is then well formed
(`ListWF`) with exactly `size` real entries. `removeNode` and `insertAtFront` preserve
well-formedness: unlinking an entry, relinking it at the front, and linking a newly
allocated node at the front each return a well-formed list. -/
theorem C17_list_well_formed (cap : Int) (hcap : 1 ≤ cap) (hint : cap < 2 ^ 31)
    (ops : List Op) :
    ∃ c0 c as, LRUCache.new cap = some c0 ∧ run c0 ops = some c ∧ ListWF c as ∧
      as.length = c.mp.length ∧
      (∀ x ∈ as, ∃ c1 c2, c.removeNode x = some c1 ∧ ListWF c1 (as.erase x) ∧
        c1.insertAtFront x = some c2 ∧ ListWF c2 (x :: as.erase x)) ∧
      (∀ k v, ∃ c1,
        LRUCache.insertAtFront ⟨c.capacity, c.mp, c.head, c.tail, (c.heap.alloc k v).2⟩
          (c.heap.alloc k v).1 = some c1 ∧
        ListWF c1 ((c.heap.alloc k v).1 :: as)) := by
  obtain ⟨c, as, e, inv, -⟩ := inv_run (LRUCache.new_inv (by omega) hint) hcap ops
  refine ⟨_, c, as, LRUCache.new_eq cap, e, inv.listWF, inv.size.symm, ?_, ?_⟩
  · intro x hx
    obtain ⟨c1, nx, -, r1, f1, ch1, -, hx1⟩ := LRUCache.unlink_spec inv.nodup inv.chain hx
    obtain ⟨-, -, eh, et, -⟩ := f1
    have pm : (c.head :: (as ++ [c.tail])).Perm (c.head :: (x :: as.erase x ++ [c.tail])) :=
      ((List.perm_cons_erase hx).append_right _).cons _
    have nd2 := pm.nodup_iff.mp inv.nodup
    have nd1 : (c1.head :: x :: (as.erase x ++ [c1.tail])).Nodup := by
      rw [eh, et]; exact nd2
    have nd1e : (c1.head :: (as.erase x ++ [c1.tail])).Nodup := by
      rw [List.nodup_cons] at nd1 ⊢
      exact ⟨fun h => nd1.1 (List.mem_cons_of_mem _ h), (List.nodup_cons.mp nd1.2).2⟩
    have ch1e : List.Chain' (link c1.heap) (c1.head :: (as.erase x ++ [c1.tail])) := by
      rw [eh, et]; exact ch1
    obtain ⟨c2, r2, f2, ch2, -, -⟩ := LRUCache.front_spec nd1 ch1e hx1
    obtain ⟨-, -, eh2, et2, -⟩ := f2
    refine ⟨c1, c2, r1, listWF_of_chain nd1e ch1e, r2, ?_⟩
    apply listWF_of_chain
    · rw [eh2, et2]; exact nd1
    · rw [eh2, et2]; exact ch2
  · intro k v
    exact front_new_spec k v inv.nodup inv.chain

/-- C17 at capacity 2 with an eviction and a hit. -/
theorem C17_list_well_formed_witness :
    ∃ c0 c as, LRUCache.new 2 = some c0 ∧
      run c0 [.put 1 1, .put 2 2, .get 1, .put 3 3] = some c ∧ ListWF c as ∧
      as.length = c.mp.length ∧
      (∀ x ∈ as, ∃ c1 c2, c.removeNode x = some c1 ∧ ListWF c1 (as.erase x) ∧
        c1.insertAtFront x = some c2 ∧ ListWF c2 (x :: as.erase x)) ∧
      (∀ k v, ∃ c1,
        LRUCache.insertAtFront ⟨c.capacity, c.mp, c.head, c.tail, (c.heap.alloc k v).2⟩
          (c.heap.alloc k v).1 = some c1 ∧
        ListWF c1 ((c.heap.alloc k v).1 :: as)) :=
  C17_list_well_formed 2 (by decide) (by decide) [.put 1 1, .put 2 2, .get 1, .put 3 3]

/-- C18: for a cache reachable from a fresh `LRUCache(cap)` with `1 ≤ cap` (an `int`), when
`put` of an absent key finds the map size equal to the capacity, the list is not empty and
`tail.prev` is its last real entry: it is neither sentinel and the map holds its key. The
map never points at a sentinel, so no sentinel is passed to `removeNode` or read by `get`;
the `put` returns, and afterwards the same two sentinels still bound a well-formed list. -/
theorem C18_eviction_removes_real_entry (cap : Int) (c : LRUCache) (k : Int) (hcap : 1 ≤ cap)
    (hint : cap < 2 ^ 31) (hr : Reachable cap c) (hk : ¬ c.resident k)
    (hfull : toInt32 c.mp.length = c.capacity) :
    ∃ ns t l, c.nodes = some ns ∧ ns ≠ [] ∧ c.heap.read c.tail = some t ∧
      c.heap.read t.prev = some l ∧ ns.getLast? = some (t.prev, l) ∧
      t.prev ≠ c.head ∧ t.prev ≠ c.tail ∧ c.mp.lookup l.key = some t.prev ∧
      (∀ k1 a, c.mp.lookup k1 = some a → a ≠ c.head ∧ a ≠ c.tail) ∧
      ∀ v, ∃ c1 as1, c.put k v = some c1 ∧ c1.head = c.head ∧ c1.tail = c.tail ∧
        ListWF c1 as1 ∧ t.prev ∉ as1 := by
  obtain ⟨as, inv, ec⟩ := reachable_inv hcap hint hr
  have hl := not_resident_iff.mp hk
  have hlen : (as.length : Int) = c.capacity := inv.full_iff.mp hfull
  obtain ⟨as1, z, rfl⟩ : ∃ as1 z, as = as1 ++ [z] := by
    rcases List.eq_nil_or_concat as with h | ⟨L, b, h⟩
    · subst h
      simp at hlen
      omega
    · exact ⟨L, b, by simpa using h⟩
  have hmem : ∀ a ∈ as1 ++ [z], a ≠ c.head ∧ a ≠ c.tail := by
    intro a ha
    have nd := List.nodup_cons.mp inv.nodup
    constructor
    · rintro rfl
      exact nd.1 (List.mem_append_left _ ha)
    · rintro rfl
      exact (List.nodup_append.mp nd.2).2.2 ha (List.mem_singleton_self _)
  obtain ⟨t, nz, -, -, -, ht, htz, hnz, -⟩ := LRUCache.evict_spec inv
  have hzk : keyAt c.heap z = nz.key := by unfold keyAt; rw [hnz]
  have hnode : nodeAt c.heap z = nz := by unfold nodeAt; rw [hnz]
  refine ⟨_, t, nz, inv.nodes_eq, by simp, ht, by rw [htz]; exact hnz, ?_, ?_, ?_, ?_, ?_, ?_⟩
  · rw [htz]
    simp [hnode]
  · rw [htz]; exact (hmem z (by simp)).1
  · rw [htz]; exact (hmem z (by simp)).2
  · rw [htz]
    exact (inv.lookup_iff _ _).mpr ⟨by simp, hzk⟩
  · intro k1 a hla
    exact hmem a ((inv.lookup_iff _ _).mp hla).1
  · intro v
    obtain ⟨c2, e, inv2, -, eh, et, -⟩ := put_miss_at inv hl (by rw [ec]; exact hcap) v
    rw [if_pos hlen, List.dropLast_concat] at inv2
    refine ⟨c2, _, e, eh, et, inv2.listWF, ?_⟩
    rw [htz]
    intro hz
    rcases List.mem_cons.mp hz with rfl | hz
    · have := Heap.read_lt hnz
      omega
    · have nd := (List.nodup_cons.mp inv.nodup).2
      have nd2 := (List.nodup_append.mp nd).1
      exact (List.nodup_append.mp nd2).2.2 hz (List.mem_singleton_self _)

/-- C18 at `LRUCache(2)` holding keys 1 and 2: `put(3, v)`. -/
theorem C18_eviction_removes_real_entry_witness :
    ∃ ns t l, sampleFull.nodes = some ns ∧ ns ≠ [] ∧ sampleFull.heap.read sampleFull.tail = some t ∧
      sampleFull.heap.read t.prev = some l ∧ ns.getLast? = some (t.prev, l) ∧
      t.prev ≠ sampleFull.head ∧ t.prev ≠ sampleFull.tail ∧
      sampleFull.mp.lookup l.key = some t.prev ∧
      (∀ k1 a, sampleFull.mp.lookup k1 = some a → a ≠ sampleFull.head ∧ a ≠ sampleFull.tail) ∧
      ∀ v, ∃ c1 as1, sampleFull.put 3 v = some c1 ∧ c1.head = sampleFull.head ∧
        c1.tail = sampleFull.tail ∧ ListWF c1 as1 ∧ t.prev ∉ as1 :=
  C18_eviction_removes_real_entry 2 sampleFull 3 (by decide) (by decide) sampleFull_reachable
    (by decide) (by decide)

/-- C13 fails on the code for a reference string of `2 ^ 31` references to page `0` and
capacity 1: the bound `(int)pages.size()` of the loop of `lruPageFaultsBrute` is then
`-2 ^ 31`, the loop does not run and the function returns 0, whatever the order in which the
set of frames would be iterated, while `lruPageFaultsOptimal` counts the one fault. -/
theorem C13_brute_stops_at_int_size :
    toInt32 manyRefs.length = -2 ^ 31 ∧
      (∀ visit : List Int → List Int, lruPageFaultsBrute visit manyRefs 1 = 0) ∧
      lruPageFaultsOptimal manyRefs 1 = some 1 := by
  have hlen : manyRefs.length = 2 ^ 31 := by
    unfold manyRefs
    exact List.length_replicate _ _
  have h32 : toInt32 (2 ^ 31) = -2 ^ 31 := by
    unfold toInt32
    norm_num
  have h : toInt32 manyRefs.length = -2 ^ 31 := by rw [hlen, h32]
  have h1 : (1 : Int).toNat = 1 := by norm_num
  refine ⟨h, ?_, ?_⟩
  · intro visit
    exact lruPageFaultsBrute_of_nonpos visit manyRefs 1 (by rw [h]; norm_num)
  · rw [optimal_eq_stack 1 (by norm_num) (by norm_num) manyRefs, h1]
    unfold manyRefs
    rw [stackFaults_replicate_pos _ (by norm_num)]

end LRU

namespace Candy

/-! ## The two passes of `candy` -/

theorem getD_set (l : List Int) (i j : Nat) (x : Int) (hi : i < l.length) :
    (l.set i x).getD j 0 = if j = i then x else l.getD j 0 := by
  simp only [List.getD_eq_getElem?_getD, List.getElem?_set]
  by_cases h : i = j
  · subst h
    simp [hi]
  · have h2 : ¬ j = i := fun e => h e.symm
    simp [h, h2]

theorem getD_replicate (n i : Nat) (hi : i < n) : (List.replicate n (1 : Int)).getD i 0 = 1 := by
  simp [List.getD_eq_getElem?_getD, List.getElem?_replicate, hi]

theorem leftStep_spec (r num : List Int) (m : Nat) (hm : m + 1 < r.length)
    (hl : num.length = r.length)
    (hv : ∀ i, i < r.length → num.getD i 0 = if i ≤ m then leftVal r i else 1) :
    (leftStep r num (m + 1)).length = r.length ∧
      ∀ i, i < r.length →
        (leftStep r num (m + 1)).getD i 0 = if i ≤ m + 1 then leftVal r i else 1 := by
  unfold leftStep
  have e1 : m + 1 - 1 = m := by omega
  rw [e1]
  by_cases hr : r.getD (m + 1) 0 > r.getD m 0
  · rw [if_pos hr]
    refine ⟨by rw [List.length_set]; exact hl, ?_⟩
    intro i hi
    rw [getD_set _ _ _ _ (by omega), hv m (by omega), if_pos le_rfl]
    by_cases hi1 : i = m + 1
    · subst hi1
      rw [if_pos rfl, if_pos le_rfl]
      simp only [leftVal, if_pos hr]
    · rw [if_neg hi1, hv i hi]
      by_cases h2 : i ≤ m
      · rw [if_pos h2, if_pos (by omega)]
      · rw [if_neg h2, if_neg (by omega)]
  · rw [if_neg hr]
    refine ⟨hl, ?_⟩
    intro i hi
    rw [hv i hi]
    by_cases hi1 : i = m + 1
    · subst hi1
      rw [if_neg (by omega), if_pos le_rfl]
      simp only [leftVal, if_neg hr]
    · by_cases h2 : i ≤ m
      · rw [if_pos h2, if_pos (by omega)]
      · rw [if_neg h2, if_neg (by omega)]

theorem leftPass_loop (r : List Int) (m : Nat) (hm : m + 1 ≤ r.length) :
    ((List.range' 1 m).foldl (leftStep r) (List.replicate r.length 1)).length = r.length ∧
      ∀ i, i < r.length →
        ((List.range' 1 m).foldl (leftStep r) (List.replicate r.length 1)).getD i 0
          = if i ≤ m then leftVal r i else 1 := by
  induction m with
  | zero =>
    refine ⟨by simp, ?_⟩
    intro i hi
    simp only [List.range'_zero, List.foldl_nil]
    rw [getD_replicate _ _ hi]
    split_ifs with h
    · have : i = 0 := by omega
      subst this
      rfl
    · rfl
  | succ m ih =>
    obtain ⟨hl, hv⟩ := ih (by omega)
    rw [List.range'_1_concat, List.foldl_append]
    simp only [List.foldl_cons, List.foldl_nil]
    have e : 1 + m = m + 1 := by omega
    rw [e]
    exact leftStep_spec r _ m (by omega) hl hv

theorem leftPass_spec (r : List Int) (hr : r ≠ []) :
    (leftPass r (List.replicate r.length 1)).length = r.length ∧
      ∀ i, i < r.length → (leftPass r (List.replicate r.length 1)).getD i 0 = leftVal r i := by
  have hpos : 0 < r.length := List.length_pos.mpr hr
  obtain ⟨hl, hv⟩ := leftPass_loop r (r.length - 1) (by omega)
  unfold leftPass
  refine ⟨hl, ?_⟩
  intro i hi
  have := hv i hi
  rw [if_pos (by omega)] at this
  exact this

theorem finalVal_succ (r : List Int) (i : Nat) (hi : i + 1 < r.length) :
    finalVal r (r.length - 1 - i)
      = if r.getD i 0 > r.getD (i + 1) 0 then
          max (leftVal r i) (finalVal r (r.length - 1 - (i + 1)) + 1)
        else leftVal r i := by
  obtain ⟨d, hd⟩ : ∃ d, r.length - 1 - i = d + 1 := ⟨r.length - 1 - i - 1, by omega⟩
  have e1 : r.length - 1 - (d + 1) = i := by omega
  have e2 : r.length - 1 - (i + 1) = d := by omega
  rw [hd, e2]
  simp only [finalVal, e1]

theorem rightPass_loop (r : List Int) (m : Nat) :
    ∀ num : List Int, m + 1 ≤ r.length → num.length = r.length →
      (∀ j, m ≤ j → j < r.length → num.getD j 0 = finalVal r (r.length - 1 - j)) →
      (∀ j, j < m → num.getD j 0 = leftVal r j) →
      ((List.range m).reverse.foldl (rightStep r) num).length = r.length ∧
        ∀ j, j < r.length →
          ((List.range m).reverse.foldl (rightStep r) num).getD j 0
            = finalVal r (r.length - 1 - j) := by
  induction m with
  | zero =>
    intro num _ hl hf _
    simp only [List.range_zero, List.reverse_nil, List.foldl_nil]
    exact ⟨hl, fun j hj => hf j (by omega) hj⟩
  | succ m ih =>
    intro num hm hl hf hlv
    rw [List.range_succ, List.reverse_append]
    simp only [List.reverse_cons, List.reverse_nil, List.nil_append, List.singleton_append,
      List.foldl_cons]
    have hfm := finalVal_succ r m (by omega)
    unfold rightStep
    by_cases hr : r.getD m 0 > r.getD (m + 1) 0
    · rw [if_pos hr]
      rw [if_pos hr] at hfm
      apply ih
      · omega
      · rw [List.length_set]; exact hl
      · intro j hj1 hj2
        rw [getD_set _ _ _ _ (by omega)]
        by_cases hjm : j = m
        · subst hjm
          rw [if_pos rfl, hlv j (by omega), hf (j + 1) (by omega) (by omega), hfm]
        · rw [if_neg hjm]
          exact hf j (by omega) hj2
      · intro j hj
        rw [getD_set _ _ _ _ (by omega), if_neg (by omega)]
        exact hlv j (by omega)
    · rw [if_neg hr]
      rw [if_neg hr] at hfm
      apply ih
      · omega
      · exact hl
      · intro j hj1 hj2
        by_cases hjm : j = m
        · subst hjm
          rw [hlv j (by omega), hfm]
        · exact hf j (by omega) hj2
      · intro j hj
        exact hlv j (by omega)

theorem candyNum_spec (r : List Int) (hr : r ≠ []) :
    (candyNum r).length = r.length ∧
      ∀ j, j < r.length → (candyNum r).getD j 0 = finalVal r (r.length - 1 - j) := by
  have hpos : 0 < r.length := List.length_pos.mpr hr
  obtain ⟨hl, hv⟩ := leftPass_spec r hr
  unfold candyNum rightPass
  apply rightPass_loop r (r.length - 1) _ (by omega) hl
  · intro j hj1 hj2
    have : j = r.length - 1 := by omega
    subst this
    rw [hv _ hj2]
    have : r.length - 1 - (r.length - 1) = 0 := by omega
    rw [this]
    rfl
  · intro j hj
    exact hv j (by omega)

/-! ## The result of `candy` is admissible and least -/

theorem leftVal_pos (r : List Int) (i : Nat) : 1 ≤ leftVal r i := by
  induction i with
  | zero => simp [leftVal]
  | succ i ih =>
    unfold leftVal
    split_ifs <;> omega

theorem finalVal_ge_left (r : List Int) (i : Nat) (hi : i < r.length) :
    leftVal r i ≤ finalVal r (r.length - 1 - i) := by
  by_cases h : i + 1 < r.length
  · rw [finalVal_succ r i h]
    split_ifs
    · exact le_max_left _ _
    · exact le_rfl
  · have : r.length - 1 - i = 0 := by omega
    rw [this]
    have : i = r.length - 1 := by omega
    rw [this]
    exact le_rfl

theorem candyNum_valid (r : List Int) (hr : r ≠ []) : Valid r (candyNum r) := by
  obtain ⟨hl, hv⟩ := candyNum_spec r hr
  refine ⟨hl, ?_, ?_⟩
  · intro i hi
    rw [hl] at hi
    rw [hv i hi]
    exact le_trans (leftVal_pos r i) (finalVal_ge_left r i hi)
  · intro i hi
    rw [hv i (by omega), hv (i + 1) hi, finalVal_succ r i hi]
    constructor
    · intro h
      rw [if_pos h]
      have := le_max_right (leftVal r i) (finalVal r (r.length - 1 - (i + 1)) + 1)
      omega
    · intro h
      rw [if_neg (by omega)]
      have h1 := finalVal_ge_left r (i + 1) hi
      have h2 : leftVal r (i + 1) = leftVal r i + 1 := by
        simp only [leftVal, if_pos h]
      omega

theorem valid_ge_left (r a : List Int) (hv : Valid r a) (i : Nat) (hi : i < r.length) :
    leftVal r i ≤ a.getD i 0 := by
  obtain ⟨hl, hpos, hadj⟩ := hv
  induction i with
  | zero => exact hpos 0 (by omega)
  | succ i ih =>
    have := ih (by omega)
    unfold leftVal
    split_ifs with h
    · have := (hadj i hi).2 h
      omega
    · exact hpos (i + 1) (by omega)

theorem valid_ge_final (r a : List Int) (hv : Valid r a) (d : Nat) :
    ∀ i, i < r.length → r.length - 1 - i = d → finalVal r d ≤ a.getD i 0 := by
  induction d with
  | zero =>
    intro i hi hd
    have : i = r.length - 1 := by omega
    subst this
    exact valid_ge_left r a hv _ hi
  | succ d ih =>
    intro i hi hd
    have h1 : i + 1 < r.length := by omega
    have := finalVal_succ r i h1
    rw [hd] at this
    rw [this]
    have e2 : r.length - 1 - (i + 1) = d := by omega
    rw [e2]
    have hleft := valid_ge_left r a hv i hi
    split_ifs with h
    · have h3 := ih (i + 1) h1 e2
      have h4 := (hv.2.2 i h1).1 h
      exact max_le hleft (by omega)
    · exact hleft

theorem sum_le_of_getD_le (a : List Int) :
    ∀ b : List Int, a.length = b.length → (∀ i, i < a.length → a.getD i 0 ≤ b.getD i 0) →
      a.sum ≤ b.sum := by
  induction a with
  | nil =>
    intro b hl _
    have : b = [] := List.length_eq_zero.mp hl.symm
    subst this
    exact le_rfl
  | cons x a ih =>
    intro b hl h
    cases b with
    | nil => simp at hl
    | cons y b =>
      have h0 := h 0 (by simp)
      have := ih b (by simpa using hl) (fun i hi => h (i + 1) (by simpa using hi))
      simp only [List.getD_cons_zero] at h0
      simp only [List.sum_cons]
      omega

theorem foldl_add_eq_sum (l : List Int) :
    ∀ acc : Int, l.foldl (fun sum it => sum + it) acc = acc + l.sum := by
  induction l with
  | nil => intro acc; simp
  | cons x l ih =>
    intro acc
    rw [List.foldl_cons, ih, List.sum_cons]
    omega

theorem candy_eq_sum (r : List Int) (hr : r ≠ []) : candy r = (candyNum r).sum := by
  unfold candy
  split_ifs with h
  · obtain ⟨x, rfl⟩ := List.length_eq_one.mp h
    rfl
  · rw [foldl_add_eq_sum, Int.zero_add]

/-- C14: for every non-empty ratings list, `candy(ratings)` is the least total of an
admissible assignment (at least one candy per child, strictly more than an adjacent child
with a strictly lower rating): the vector `num` it sums is admissible, and no admissible
assignment has a smaller total. Arithmetic is over the unbounded integers. -/
theorem C14_candy_is_minimum (ratings : List Int) (hne : ratings ≠ []) :
    (∃ num, Valid ratings num ∧ num.sum = candy ratings) ∧
      ∀ num, Valid ratings num → candy ratings ≤ num.sum := by
  refine ⟨⟨candyNum ratings, candyNum_valid ratings hne, (candy_eq_sum ratings hne).symm⟩, ?_⟩
  intro num hv
  rw [candy_eq_sum ratings hne]
  obtain ⟨hl, hval⟩ := candyNum_spec ratings hne
  apply sum_le_of_getD_le
  · rw [hl, hv.1]
  · intro i hi
    rw [hl] at hi
    rw [hval i hi]
    exact valid_ge_final ratings num hv _ i hi rfl

/-- C14 on the ratings `[1, 3, 4, 5, 2]` of the usage example. -/
theorem C14_candy_is_minimum_witness :
    (∃ num, Valid [1, 3, 4, 5, 2] num ∧ num.sum = candy [1, 3, 4, 5, 2]) ∧
      ∀ num, Valid [1, 3, 4, 5, 2] num → candy [1, 3, 4, 5, 2] ≤ num.sum :=
  C14_candy_is_minimum [1, 3, 4, 5, 2] (by decide)

/-- C15 fails on the code: on the ratings `[3, 2, 1]` the single-pass `candyOptimal`
returns 5 while the two-pass `candy` returns 6. -/
theorem C15_candyOptimal_differs : candyOptimal [3, 2, 1] = 5 ∧ candy [3, 2, 1] = 6 := by
  decide

end Candy
